import Mathlib

/-! Verification of the MMB binary proof exporter of mm0-rs
    (src/mm0-rs/src/mmb/export.rs).

    The development shallowly embeds the exporter: binder packing
    (write_sort_deps, write_binders), the positioned writer (align_to),
    the reorder map and the three shared-DAG serializers (write_expr_proof,
    write_expr_unify, write_proof / write_conv), the table and header
    layout of Exporter::run, and the debugging index
    (write_index_entry, write_index).  Machine integers are modelled as
    Nat; Rust fatal aborts and out-of-range indexing are modelled by
    Option.  Serializers recurse on an explicit fuel counter; theorems
    are stated for every run that returns a value. -/

namespace MMB

/-- Binder type of an argument (crate Type in export.rs): a freshly bound
variable of a sort, or a regular variable with a dependency bitmask. -/
inductive BinderTy where
  | bound (s : Nat)
  | reg (s : Nat) (deps : Nat)
deriving DecidableEq, Repr

/-- Packed 64-bit binder word written by Exporter::write_sort_deps:
bound flag shifted to bit 63, or-ed with the sort in bits 62..56 and the
dependency mask. -/
def sortDepsWord (bd : Bool) (s deps : Nat) : Nat :=
  (bd.toNat <<< 63) ||| (s <<< 56) ||| deps

/-- Number of Bound binders in an argument list. -/
def boundCount : List BinderTy → Nat
  | [] => 0
  | .bound _ :: rest => boundCount rest + 1
  | .reg _ _ :: rest => boundCount rest

/-- Loop of Exporter::write_binders with the rolling bound-variable bit bv.
Returns the emitted 64-bit words and a flag that is true when the source
aborts (more than 55 bound variables).  On an abort nothing further is
written. -/
def writeBindersGo (bv : Nat) : List BinderTy → List Nat × Bool
  | [] => ([], false)
  | .bound s :: rest =>
    if 2 ^ 55 ≤ bv then ([], true)
    else
      let p := writeBindersGo (2 * bv) rest
      (sortDepsWord true s bv :: p.1, p.2)
  | .reg s deps :: rest =>
    let p := writeBindersGo bv rest
    (sortDepsWord false s deps :: p.1, p.2)

/-- Exporter::write_binders: the rolling bit starts at 1. -/
def writeBinders (args : List BinderTy) : List Nat × Bool :=
  writeBindersGo 1 args

/-- Number of padding bytes appended by Exporter::align_to, computed as in
the source with a wrapping u8 subtraction and a mask by n - 1. -/
def alignPad (n pos : Nat) : Nat :=
  ((n + 256 - pos % 256) % 256) &&& (n - 1)

/-- Exporter::align_to: append alignPad zero bytes and return the new
position. -/
def alignTo (n pos : Nat) : List Nat × Nat :=
  (List.replicate (alignPad n pos) 0, pos + alignPad n pos)

/-- Expression DAG node (crate ExprNode): a back-reference into the heap,
a dummy variable, or a term application. -/
inductive ExprNode where
  | ref (i : Nat)
  | dummy (s : Nat)
  | app (tid : Nat) (es : List ExprNode)

/-- Proof DAG node (crate ProofNode).  The Unfold node keeps only the res
triple, which is all write_conv destructures. -/
inductive ProofNode where
  | ref (i : Nat)
  | dummy (s : Nat)
  | term (tid : Nat) (args : List ProofNode)
  | hyp (n : Nat) (e : ProofNode)
  | thm (tid : Nat) (args : List ProofNode) (res : ProofNode)
  | conv (e1 c p : ProofNode)
  | refl (e : ProofNode)
  | sym (c : ProofNode)
  | cong (args : List ProofNode)
  | unf (l l2 c : ProofNode)

/-- Proof-stream opcodes (mmb ProofCmd) as abstract commands. -/
inductive PCmd where
  | ref (n : Nat)
  | dummy (s : Nat)
  | term (tid : Nat) (save : Bool)
  | thm (tid : Nat) (save : Bool)
  | hyp
  | conv
  | save
  | refl
  | sym
  | cong
  | unfoldCmd
  | convCut
  | convRef (n : Nat)
  | convSave
deriving DecidableEq, Repr

/-- Unify-stream opcodes (mmb UnifyCmd) as abstract commands. -/
inductive UCmd where
  | ref (n : Nat)
  | dummy (s : Nat)
  | term (tid : Nat) (save : Bool)
  | hyp
deriving DecidableEq, Repr

/-- Serializer event: an emitted command, or entry into the expansion of
heap slot i (the branch of a Ref node whose reorder entry is still empty). -/
inductive Ev (α : Type) where
  | cmd (c : α)
  | expand (i : Nat)
deriving DecidableEq, Repr

/-- Reorder map (struct Reorder): per-slot optional output indices and the
running counter idx. -/
structure Reorder where
  map : List (Option Nat)
  idx : Nat
deriving DecidableEq, Repr

/-- Reorder::new with the identity initializer f used at every call site:
slots below nargs are preassigned to themselves, idx starts at nargs; the
source asserts nargs is at most the heap length. -/
def Reorder.new (nargs len : Nat) : Option Reorder :=
  if nargs ≤ len then
    some ⟨(List.range len).map (fun i => if i < nargs then some i else none), nargs⟩
  else none

/-- Drain of the unify save accumulator (the commit! macro): assign n to
every queued slot. -/
def commitSave (m : List (Option Nat)) (save : List Nat) (n : Nat) : List (Option Nat) :=
  save.foldl (fun acc i => acc.set i (some n)) m

mutual

/-- Function write_expr_proof (export.rs), instrumented with expand events.
Returns the event stream, the updated reorder map and the returned index. -/
def writeExprProof (heap : List ExprNode) :
    Nat → Reorder → ExprNode → Bool → Option (List (Ev PCmd) × Reorder × Nat)
  | 0, _, _, _ => none
  | fuel + 1, r, .ref i, _ =>
    match r.map[i]? with
    | none => none
    | some (some n) => some ([.cmd (.ref n)], r, n)
    | some none =>
      match heap[i]? with
      | none => none
      | some e =>
        match writeExprProof heap fuel r e true with
        | none => none
        | some (out, r1, n) =>
          some (.expand i :: out, ⟨r1.map.set i (some n), r1.idx⟩, n)
  | _ + 1, r, .dummy s, _ =>
    some ([.cmd (.dummy s)], ⟨r.map, r.idx + 1⟩, r.idx)
  | fuel + 1, r, .app tid es, save =>
    match writeExprProofList heap fuel r es with
    | none => none
    | some (out, r1) =>
      if save then
        some (out ++ [.cmd (.term tid true)], ⟨r1.map, r1.idx + 1⟩, r1.idx)
      else
        some (out ++ [.cmd (.term tid false)], r1, 0)

/-- Serialization of the children of an App node in write_expr_proof, each
with save = false. -/
def writeExprProofList (heap : List ExprNode) :
    Nat → Reorder → List ExprNode → Option (List (Ev PCmd) × Reorder)
  | 0, _, _ => none
  | _ + 1, r, [] => some ([], r)
  | fuel + 1, r, e :: es =>
    match writeExprProof heap fuel r e false with
    | none => none
    | some (out, r1, _) =>
      match writeExprProofList heap fuel r1 es with
      | none => none
      | some (out2, r2) => some (out ++ out2, r2)

end

mutual

/-- Function write_expr_unify (export.rs): the unify-stream serializer with
its save accumulator, instrumented with expand events. -/
def writeExprUnify (heap : List ExprNode) :
    Nat → Reorder → List Nat → ExprNode → Option (List (Ev UCmd) × Reorder × List Nat)
  | 0, _, _, _ => none
  | fuel + 1, r, sv, .ref i =>
    match r.map[i]? with
    | none => none
    | some (some n) => some ([.cmd (.ref n)], ⟨commitSave r.map sv n, r.idx⟩, [])
    | some none =>
      match heap[i]? with
      | none => none
      | some e =>
        match writeExprUnify heap fuel r (sv ++ [i]) e with
        | none => none
        | some (out, r1, sv1) => some (.expand i :: out, r1, sv1)
  | _ + 1, r, sv, .dummy s =>
    some ([.cmd (.dummy s)], ⟨commitSave r.map sv r.idx, r.idx + 1⟩, [])
  | fuel + 1, r, sv, .app tid es =>
    match sv with
    | [] =>
      match writeExprUnifyList heap fuel r [] es with
      | none => none
      | some (out, r1, sv1) => some (.cmd (.term tid false) :: out, r1, sv1)
    | _ :: _ =>
      match writeExprUnifyList heap fuel ⟨commitSave r.map sv r.idx, r.idx + 1⟩ [] es with
      | none => none
      | some (out, r1, sv1) => some (.cmd (.term tid true) :: out, r1, sv1)

/-- Serialization of the children of an App node in write_expr_unify,
threading the reorder map and the save accumulator. -/
def writeExprUnifyList (heap : List ExprNode) :
    Nat → Reorder → List Nat → List ExprNode → Option (List (Ev UCmd) × Reorder × List Nat)
  | 0, _, _, _ => none
  | _ + 1, r, sv, [] => some ([], r, sv)
  | fuel + 1, r, sv, e :: es =>
    match writeExprUnify heap fuel r sv e with
    | none => none
    | some (out, r1, sv1) =>
      match writeExprUnifyList heap fuel r1 sv1 es with
      | none => none
      | some (out2, r2, sv2) => some (out ++ out2, r2, sv2)

end

/-- Test used by write_conv on the referenced heap node: Refl and Ref nodes
are inlined without a ConvCut / ConvSave pair. -/
def isReflOrRef : ProofNode → Bool
  | .refl _ => true
  | .ref _ => true
  | _ => false

mutual

/-- Function Exporter::write_proof (export.rs): the proof-stream
serializer.  The parameter thmArgs gives the declared argument count of a
theorem id (None for an out-of-range id); hyps is the vector of indices
assigned to the hypotheses. -/
def writeProof (thmArgs : Nat → Option Nat) (heap : List ProofNode) (hyps : List Nat) :
    Nat → Reorder → ProofNode → Bool → Option (List (Ev PCmd) × Reorder × Nat)
  | 0, _, _, _ => none
  | fuel + 1, r, .ref i, _ =>
    match r.map[i]? with
    | none => none
    | some (some n) => some ([.cmd (.ref n)], r, n)
    | some none =>
      match heap[i]? with
      | none => none
      | some e =>
        match writeProof thmArgs heap hyps fuel r e true with
        | none => none
        | some (out, r1, n) =>
          some (.expand i :: out, ⟨r1.map.set i (some n), r1.idx⟩, n)
  | _ + 1, r, .dummy s, _ =>
    some ([.cmd (.dummy s)], ⟨r.map, r.idx + 1⟩, r.idx)
  | fuel + 1, r, .term tid args, save =>
    match writeProofList thmArgs heap hyps fuel r args with
    | none => none
    | some (out, r1) =>
      if save then
        some (out ++ [.cmd (.term tid true)], ⟨r1.map, r1.idx + 1⟩, r1.idx)
      else
        some (out ++ [.cmd (.term tid false)], r1, 0)
  | _ + 1, r, .hyp n _, _ =>
    match hyps[n]? with
    | none => none
    | some m => some ([.cmd (.ref m)], r, m)
  | fuel + 1, r, .thm tid args res, save =>
    match thmArgs tid with
    | none => none
    | some k =>
      if k ≤ args.length then
        match writeProofList thmArgs heap hyps fuel r (args.drop k) with
        | none => none
        | some (out1, r1) =>
          match writeProofList thmArgs heap hyps fuel r1 (args.take k) with
          | none => none
          | some (out2, r2) =>
            match writeProof thmArgs heap hyps fuel r2 res false with
            | none => none
            | some (out3, r3, _) =>
              if save then
                some (out1 ++ out2 ++ out3 ++ [.cmd (.thm tid true)],
                  ⟨r3.map, r3.idx + 1⟩, r3.idx)
              else
                some (out1 ++ out2 ++ out3 ++ [.cmd (.thm tid false)], r3, 0)
      else none
  | fuel + 1, r, .conv e1 c p, save =>
    match writeProof thmArgs heap hyps fuel r e1 false with
    | none => none
    | some (out1, r1, _) =>
      match writeProof thmArgs heap hyps fuel r1 p false with
      | none => none
      | some (out2, r2, _) =>
        match writeConv thmArgs heap hyps fuel r2 c with
        | none => none
        | some (out3, r3) =>
          if save then
            some (out1 ++ out2 ++ [.cmd .conv] ++ out3 ++ [.cmd .save],
              ⟨r3.map, r3.idx + 1⟩, r3.idx)
          else
            some (out1 ++ out2 ++ [.cmd .conv] ++ out3, r3, 0)
  | _ + 1, _, .refl _, _ => none
  | _ + 1, _, .sym _, _ => none
  | _ + 1, _, .cong _, _ => none
  | _ + 1, _, .unf _ _ _, _ => none

/-- Serialization of a list of proof nodes, each with save = false. -/
def writeProofList (thmArgs : Nat → Option Nat) (heap : List ProofNode) (hyps : List Nat) :
    Nat → Reorder → List ProofNode → Option (List (Ev PCmd) × Reorder)
  | 0, _, _ => none
  | _ + 1, r, [] => some ([], r)
  | fuel + 1, r, e :: es =>
    match writeProof thmArgs heap hyps fuel r e false with
    | none => none
    | some (out, r1, _) =>
      match writeProofList thmArgs heap hyps fuel r1 es with
      | none => none
      | some (out2, r2) => some (out ++ out2, r2)

/-- Function Exporter::write_conv (export.rs): the conversion-stream
serializer. -/
def writeConv (thmArgs : Nat → Option Nat) (heap : List ProofNode) (hyps : List Nat) :
    Nat → Reorder → ProofNode → Option (List (Ev PCmd) × Reorder)
  | 0, _, _ => none
  | fuel + 1, r, .ref i =>
    match r.map[i]? with
    | none => none
    | some (some n) => some ([.cmd (.convRef n)], r)
    | some none =>
      match heap[i]? with
      | none => none
      | some e =>
        if isReflOrRef e then
          match writeConv thmArgs heap hyps fuel r e with
          | none => none
          | some (out, r1) => some (.expand i :: out, r1)
        else
          match writeConv thmArgs heap hyps fuel r e with
          | none => none
          | some (out, r1) =>
            some (.expand i :: .cmd .convCut :: out ++ [.cmd .convSave],
              ⟨r1.map.set i (some r1.idx), r1.idx + 1⟩)
  | _ + 1, _, .dummy _ => none
  | _ + 1, _, .term _ _ => none
  | _ + 1, _, .hyp _ _ => none
  | _ + 1, _, .thm _ _ _ => none
  | _ + 1, _, .conv _ _ _ => none
  | _ + 1, r, .refl _ => some ([.cmd .refl], r)
  | fuel + 1, r, .sym c =>
    match writeConv thmArgs heap hyps fuel r c with
    | none => none
    | some (out, r1) => some (.cmd .sym :: out, r1)
  | fuel + 1, r, .cong args =>
    match writeConvList thmArgs heap hyps fuel r args with
    | none => none
    | some (out, r1) => some (.cmd .cong :: out, r1)
  | fuel + 1, r, .unf l l2 c =>
    match writeProof thmArgs heap hyps fuel r l false with
    | none => none
    | some (out1, r1, _) =>
      match writeProof thmArgs heap hyps fuel r1 l2 false with
      | none => none
      | some (out2, r2, _) =>
        match writeConv thmArgs heap hyps fuel r2 c with
        | none => none
        | some (out3, r3) => some (out1 ++ out2 ++ [.cmd .unfoldCmd] ++ out3, r3)

/-- Serialization of the argument list of a Cong node. -/
def writeConvList (thmArgs : Nat → Option Nat) (heap : List ProofNode) (hyps : List Nat) :
    Nat → Reorder → List ProofNode → Option (List (Ev PCmd) × Reorder)
  | 0, _, _ => none
  | _ + 1, r, [] => some ([], r)
  | fuel + 1, r, e :: es =>
    match writeConv thmArgs heap hyps fuel r e with
    | none => none
    | some (out, r1) =>
      match writeConvList thmArgs heap hyps fuel r1 es with
      | none => none
      | some (out2, r2) => some (out ++ out2, r2)

end

/-- Little-endian bytes of a 16-bit value. -/
def u16le (n : Nat) : List Nat := [n % 256, n / 256 % 256]

/-- Little-endian bytes of a 32-bit value. -/
def u32le (n : Nat) : List Nat :=
  [n % 256, n / 256 % 256, n / 65536 % 256, n / 16777216 % 256]

/-- Little-endian bytes of a 64-bit value. -/
def u64le (n : Nat) : List Nat := u32le (n % 4294967296) ++ u32le (n / 4294967296)

/-- Concatenation of byte chunks. -/
def catBytes : List (List Nat) → List Nat
  | [] => []
  | b :: rest => b ++ catBytes rest

/-- Modelled from the spec: the wire codec (mmb_parser crate) is a
collaborator whose source is outside src; spec section 6.1 describes its
records as a cmd byte, a variable-width payload length and the payload.
A command with numeric data is a single cmd byte when the data is 0,
otherwise the cmd byte with a width tag in the top two bits followed by
the data in 1, 2 or 4 little-endian bytes. -/
def writeCmd (cmd data : Nat) : List Nat :=
  if data = 0 then [cmd]
  else if data < 256 then [cmd ||| 64, data]
  else if data < 65536 then (cmd ||| 128) :: u16le data
  else (cmd ||| 192) :: u32le data

/-- Modelled from the spec: write_cmd_bytes frames a statement record as
the command with the payload length as data, then the payload bytes. -/
def writeCmdBytes (cmd : Nat) (payload : List Nat) : List Nat :=
  writeCmd cmd payload.length ++ payload

/-- Modelled from the spec: the magic constant of the wire codec.  The
spec fixes the whole header at 40 bytes, which together with the field
list of section 6.1 makes the magic 4 bytes. -/
def MM0B_MAGIC : List Nat := [77, 77, 48, 66]

/-- Modelled from the spec: the version byte of the wire codec. -/
def MM0B_VERSION : Nat := 1

/-- Modelled from the spec: statement command bytes of the wire codec.
Their numeric values decide no claim; only their presence as single
command bytes does. -/
def STMT_SORT : Nat := 4

/-- Modelled from the spec: statement command byte for axioms. -/
def STMT_AXIOM : Nat := 2

/-- Modelled from the spec: statement command byte for pure terms. -/
def STMT_TERM : Nat := 5

/-- Modelled from the spec: statement command byte for definitions. -/
def STMT_DEF : Nat := 5

/-- Modelled from the spec: statement command byte for theorems. -/
def STMT_THM : Nat := 6

/-- Modelled from the spec: local-visibility flag or-ed onto statement
command bytes. -/
def STMT_LOCAL : Nat := 8

/-- Modelled from the spec: unify command bytes of the wire codec. -/
def UNIFY_TERM : Nat := 48

/-- Modelled from the spec: unify Term command byte with the save bit. -/
def UNIFY_TERM_SAVE : Nat := 49

/-- Modelled from the spec: unify Ref command byte. -/
def UNIFY_REF : Nat := 50

/-- Modelled from the spec: unify Dummy command byte. -/
def UNIFY_DUMMY : Nat := 51

/-- Modelled from the spec: unify Hyp command byte. -/
def UNIFY_HYP : Nat := 54

/-- Modelled from the spec: proof command bytes of the wire codec. -/
def PROOF_TERM : Nat := 16

/-- Modelled from the spec: proof Term command byte with the save bit. -/
def PROOF_TERM_SAVE : Nat := 17

/-- Modelled from the spec: proof Ref command byte. -/
def PROOF_REF : Nat := 18

/-- Modelled from the spec: proof Dummy command byte. -/
def PROOF_DUMMY : Nat := 19

/-- Modelled from the spec: proof Thm command byte. -/
def PROOF_THM : Nat := 20

/-- Modelled from the spec: proof Thm command byte with the save bit. -/
def PROOF_THM_SAVE : Nat := 21

/-- Modelled from the spec: proof Hyp command byte. -/
def PROOF_HYP : Nat := 22

/-- Modelled from the spec: proof Conv command byte. -/
def PROOF_CONV : Nat := 23

/-- Modelled from the spec: proof Refl command byte. -/
def PROOF_REFL : Nat := 24

/-- Modelled from the spec: proof Sym command byte. -/
def PROOF_SYM : Nat := 25

/-- Modelled from the spec: proof Cong command byte. -/
def PROOF_CONG : Nat := 26

/-- Modelled from the spec: proof Unfold command byte. -/
def PROOF_UNFOLD : Nat := 27

/-- Modelled from the spec: proof ConvCut command byte. -/
def PROOF_CONV_CUT : Nat := 28

/-- Modelled from the spec: proof ConvRef command byte. -/
def PROOF_CONV_REF : Nat := 29

/-- Modelled from the spec: proof ConvSave command byte. -/
def PROOF_CONV_SAVE : Nat := 30

/-- Modelled from the spec: proof Save command byte. -/
def PROOF_SAVE : Nat := 31

/-- Byte encoding of a unify command (UnifyCmd::write_to with the
modelled codec). -/
def ucmdBytes : UCmd → List Nat
  | .ref n => writeCmd UNIFY_REF n
  | .dummy s => writeCmd UNIFY_DUMMY s
  | .term tid false => writeCmd UNIFY_TERM tid
  | .term tid true => writeCmd UNIFY_TERM_SAVE tid
  | .hyp => writeCmd UNIFY_HYP 0

/-- Byte encoding of a proof command (ProofCmd::write_to with the
modelled codec). -/
def pcmdBytes : PCmd → List Nat
  | .ref n => writeCmd PROOF_REF n
  | .dummy s => writeCmd PROOF_DUMMY s
  | .term tid false => writeCmd PROOF_TERM tid
  | .term tid true => writeCmd PROOF_TERM_SAVE tid
  | .thm tid false => writeCmd PROOF_THM tid
  | .thm tid true => writeCmd PROOF_THM_SAVE tid
  | .hyp => writeCmd PROOF_HYP 0
  | .conv => writeCmd PROOF_CONV 0
  | .save => writeCmd PROOF_SAVE 0
  | .refl => writeCmd PROOF_REFL 0
  | .sym => writeCmd PROOF_SYM 0
  | .cong => writeCmd PROOF_CONG 0
  | .unfoldCmd => writeCmd PROOF_UNFOLD 0
  | .convCut => writeCmd PROOF_CONV_CUT 0
  | .convRef n => writeCmd PROOF_CONV_REF n
  | .convSave => writeCmd PROOF_CONV_SAVE 0

/-- Bytes of a unify event stream: commands encode, expand markers are
instrumentation and contribute nothing. -/
def uEvBytes (evs : List (Ev UCmd)) : List Nat :=
  catBytes (evs.map (fun e => match e with | .cmd c => ucmdBytes c | .expand _ => []))

/-- Bytes of a proof event stream. -/
def pEvBytes (evs : List (Ev PCmd)) : List Nat :=
  catBytes (evs.map (fun e => match e with | .cmd c => pcmdBytes c | .expand _ => []))

/-- Value of a term definition (crate Expr with heap and head). -/
structure Expr0 where
  heap : List ExprNode
  head : ExprNode

/-- Kind of a term (crate TermKind): Term or Def. -/
inductive TermKind where
  | term
  | defn (val : Option Expr0)

/-- Data of a term declaration. -/
structure TermData where
  atom : Nat
  args : List BinderTy
  ret : Nat × Nat
  kind : TermKind
  visLocal : Bool

/-- Proof of a theorem (crate Proof with heap, hyps and head). -/
structure PrfData where
  heap : List ProofNode
  hyps : List ProofNode
  head : ProofNode

/-- Kind of a theorem (crate ThmKind): Axiom or Thm. -/
inductive ThmKind where
  | axm
  | thm (prf : Option PrfData)

/-- Data of a theorem declaration; hypothesis names are dropped. -/
structure ThmData where
  atom : Nat
  args : List BinderTy
  heap : List ExprNode
  hyps : List ExprNode
  ret : ExprNode
  kind : ThmKind
  visPub : Bool

/-- Declaration key of an atom (crate DeclKey). -/
inductive DeclKey where
  | term (t : Nat)
  | thm (t : Nat)

/-- Entry of the declaration trace (crate StmtTrace). -/
inductive StmtTrace where
  | sort (a : Nat)
  | decl (a : Nat)
  | global
  | outputString

/-- Data of an atom.  Modelled from the spec: the name bytes and, for the
debugging index, the resolved source line and character (the span and
LinedString::to_pos translation live outside src). -/
structure AtomData where
  name : List Nat
  sortOf : Option Nat
  declOf : Option DeclKey
  srcLine : Nat
  srcChar : Nat

/-- The frozen input environment. -/
structure Env where
  sorts : List Nat
  terms : List TermData
  thms : List ThmData
  stmts : List StmtTrace
  data : List AtomData

/-- Declared argument count of a theorem id, as consulted by write_proof. -/
def thmArgsOf (env : Env) : Nat → Option Nat :=
  fun t => (env.thms[t]?).map (fun td => td.args.length)

/-- Modelled from the spec: ProofNode::deref resolves a Ref through the
heap; section 4.9 requires each recorded hypothesis to dereference to a
Hyp node. -/
def derefNode (heap : List ProofNode) : ProofNode → Option ProofNode
  | .ref i => heap[i]?
  | n => some n

/-- State of the positioned writer plus the fixup registry: the bytes
written so far, the position counter and the pending out-of-order
writes. -/
structure ExpSt where
  out : List Nat
  pos : Nat
  fixups : List (Nat × List Nat)
deriving DecidableEq, Repr

/-- Append bytes to the writer (Write::write_all). -/
def wrB (st : ExpSt) (bs : List Nat) : ExpSt :=
  { st with out := st.out ++ bs, pos := st.pos + bs.length }

/-- Record a committed fixup. -/
def pushFix (st : ExpSt) (p : Nat) (v : List Nat) : ExpSt :=
  { st with fixups := st.fixups ++ [(p, v)] }

/-- Exporter::align_to acting on the writer state. -/
def alignSt (n : Nat) (st : ExpSt) : ExpSt :=
  wrB st (List.replicate (alignPad n st.pos) 0)

/-- Header and sort-modifier table of Exporter::run, with the capacity
checks of the source; returns the writer state and the placeholder
offsets of the four forward-pointer fixups. -/
def runHeaderSorts (env : Env) : Option (ExpSt × Nat × Nat × Nat × Nat) :=
  if env.sorts.length ≤ 128 then
    if env.terms.length < 2 ^ 32 then
      if env.thms.length < 2 ^ 32 then
        let st1 := wrB ⟨[], 0, []⟩ (MM0B_MAGIC ++ [MM0B_VERSION, env.sorts.length, 0, 0] ++
          u32le env.terms.length ++ u32le env.thms.length)
        let fpTerms := st1.pos
        let st2 := wrB st1 (u32le 0)
        let fpThms := st2.pos
        let st3 := wrB st2 (u32le 0)
        let fpProof := st3.pos
        let st4 := wrB st3 (u64le 0)
        let fpIndex := st4.pos
        let st5 := wrB st4 (u64le 0)
        some (wrB st5 env.sorts, fpTerms, fpThms, fpProof, fpIndex)
      else none
    else none
  else none

/-- Body block of one term table entry: the binder words, the return-type
word and, for a definition, the unify command bytes and the terminating
0 byte.  A pure term gets no terminator. -/
def termBodyBytes (t : TermData) (fuel : Nat) : Option (List Nat) :=
  let wb := writeBinders t.args
  if wb.2 then none
  else
    let base := catBytes (wb.1.map u64le) ++ u64le (sortDepsWord false t.ret.1 t.ret.2)
    match t.kind with
    | .term => some base
    | .defn none => none
    | .defn (some val) =>
      match Reorder.new t.args.length val.heap.length with
      | none => none
      | some r0 =>
        match writeExprUnify val.heap fuel r0 [] val.head with
        | none => none
        | some (evs, _, _) => some (base ++ uEvBytes evs ++ [0])

/-- One iteration of the term table loop: align to 8, record the aligned
offset in the 8-byte table slot, then write the body. -/
def termStep (fuel : Nat) (st : ExpSt) (t : TermData) : Option (ExpSt × List Nat × Nat) :=
  if t.args.length ≤ 65535 then
    let st1 := alignSt 8 st
    if st1.pos < 2 ^ 32 then
      match termBodyBytes t fuel with
      | none => none
      | some body =>
        let hasDef := match t.kind with | TermKind.term => false | TermKind.defn _ => true
        some (wrB st1 body,
          u16le t.args.length ++ [t.ret.1 ||| (if hasDef then 128 else 0), 0] ++ u32le st1.pos,
          st1.pos)
    else none
  else none

/-- The term table loop, collecting the slot bytes and body offsets. -/
def termLoop (fuel : Nat) : ExpSt → List TermData → Option (ExpSt × List (List Nat) × List Nat)
  | st, [] => some (st, [], [])
  | st, t :: rest =>
    match termStep fuel st t with
    | none => none
    | some (st1, slot, off) =>
      match termLoop fuel st1 rest with
      | none => none
      | some (st2, slots, offs) => some (st2, slot :: slots, off :: offs)

/-- Term table section of Exporter::run: align, commit p_terms, reserve
the table as a large fixup, run the loop, commit the table. -/
def runTerms (env : Env) (fuel : Nat) (fp : Nat) (st : ExpSt) :
    Option (ExpSt × Nat × List Nat) :=
  let st1 := alignSt 8 st
  let pT := st1.pos
  if pT < 2 ^ 32 then
    let st2 := pushFix st1 fp (u32le pT)
    let tablePos := st2.pos
    let st3 := wrB st2 (List.replicate (8 * env.terms.length) 0)
    match termLoop fuel st3 env.terms with
    | none => none
    | some (st4, slots, offs) => some (pushFix st4 tablePos (catBytes slots), pT, offs)
  else none

/-- Loop of Exporter::run over the reversed hypothesis list of a theorem:
each hypothesis is preceded by UnifyCmd::Hyp and serialized with the same
reorder map and save accumulator. -/
def unifyHypsLoop (heap : List ExprNode) (fuel : Nat) :
    Reorder → List Nat → List ExprNode → Option (List (Ev UCmd) × Reorder × List Nat)
  | r, sv, [] => some ([], r, sv)
  | r, sv, h :: rest =>
    match writeExprUnify heap fuel r sv h with
    | none => none
    | some (o, r1, sv1) =>
      match unifyHypsLoop heap fuel r1 sv1 rest with
      | none => none
      | some (o2, r2, sv2) => some (Ev.cmd UCmd.hyp :: o ++ o2, r2, sv2)

/-- Unify stream of a theorem table entry: the return expression first,
then the hypotheses in reverse declaration order. -/
def thmUnifyStream (heap : List ExprNode) (fuel : Nat) (r0 : Reorder)
    (ret : ExprNode) (hyps : List ExprNode) :
    Option (List (Ev UCmd) × Reorder × List Nat) :=
  match writeExprUnify heap fuel r0 [] ret with
  | none => none
  | some (o1, r1, sv1) =>
    match unifyHypsLoop heap fuel r1 sv1 hyps.reverse with
    | none => none
    | some (o2, r2, sv2) => some (o1 ++ o2, r2, sv2)

/-- Body block of one theorem table entry: binder words, the unify stream
for the statement and reversed hypotheses, and the terminating 0 byte. -/
def thmBodyBytes (t : ThmData) (fuel : Nat) : Option (List Nat) :=
  let wb := writeBinders t.args
  if wb.2 then none
  else
    match Reorder.new t.args.length t.heap.length with
    | none => none
    | some r0 =>
      match thmUnifyStream t.heap fuel r0 t.ret t.hyps with
      | none => none
      | some (evs, _, _) => some (catBytes (wb.1.map u64le) ++ uEvBytes evs ++ [0])

/-- One iteration of the theorem table loop. -/
def thmStep (fuel : Nat) (st : ExpSt) (t : ThmData) : Option (ExpSt × List Nat × Nat) :=
  if t.args.length ≤ 65535 then
    let st1 := alignSt 8 st
    if st1.pos < 2 ^ 32 then
      match thmBodyBytes t fuel with
      | none => none
      | some body =>
        some (wrB st1 body, u16le t.args.length ++ [0, 0] ++ u32le st1.pos, st1.pos)
    else none
  else none

/-- The theorem table loop. -/
def thmLoop (fuel : Nat) : ExpSt → List ThmData → Option (ExpSt × List (List Nat) × List Nat)
  | st, [] => some (st, [], [])
  | st, t :: rest =>
    match thmStep fuel st t with
    | none => none
    | some (st1, slot, off) =>
      match thmLoop fuel st1 rest with
      | none => none
      | some (st2, slots, offs) => some (st2, slot :: slots, off :: offs)

/-- Theorem table section of Exporter::run. -/
def runThms (env : Env) (fuel : Nat) (fp : Nat) (st : ExpSt) :
    Option (ExpSt × Nat × List Nat) :=
  let st1 := alignSt 8 st
  let pH := st1.pos
  if pH < 2 ^ 32 then
    let st2 := pushFix st1 fp (u32le pH)
    let tablePos := st2.pos
    let st3 := wrB st2 (List.replicate (8 * env.thms.length) 0)
    match thmLoop fuel st3 env.thms with
    | none => none
    | some (st4, slots, offs) => some (pushFix st4 tablePos (catBytes slots), pH, offs)
  else none

/-- Hypothesis prelude of an axiom statement: each hypothesis expression
is serialized and followed by ProofCmd::Hyp. -/
def axHypsLoop (heap : List ExprNode) (fuel : Nat) :
    Reorder → List ExprNode → Option (List (Ev PCmd) × Reorder)
  | r, [] => some ([], r)
  | r, h :: rest =>
    match writeExprProof heap fuel r h false with
    | none => none
    | some (o, r1, _) =>
      match axHypsLoop heap fuel r1 rest with
      | none => none
      | some (o2, r2) => some (o ++ Ev.cmd PCmd.hyp :: o2, r2)

/-- Hypothesis prelude of a theorem proof: each recorded hypothesis must
dereference to a Hyp node; its expression is serialized, ProofCmd::Hyp is
emitted, and the fresh index is appended to the ehyps vector. -/
def thmHypsLoop (thmArgs : Nat → Option Nat) (heap : List ProofNode) (fuel : Nat) :
    Reorder → List Nat → List ProofNode → Option (List (Ev PCmd) × Reorder × List Nat)
  | r, ehyps, [] => some ([], r, ehyps)
  | r, ehyps, h :: rest =>
    match derefNode heap h with
    | none => none
    | some (.hyp _ e) =>
      match writeProof thmArgs heap ehyps fuel r e false with
      | none => none
      | some (o, r1, _) =>
        match thmHypsLoop thmArgs heap fuel ⟨r1.map, r1.idx + 1⟩ (ehyps ++ [r1.idx]) rest with
        | none => none
        | some (o2, r2, eh2) => some (o ++ Ev.cmd PCmd.hyp :: o2, r2, eh2)
    | some _ => none

/-- Declaration record of the proof body stream for one Decl trace entry. -/
def stmtDeclBytes (env : Env) (fuel : Nat) (a : Nat) : Option (List Nat) :=
  match env.data[a]? with
  | none => none
  | some ad =>
    match ad.declOf with
    | none => none
    | some (.term t) =>
      match env.terms[t]? with
      | none => none
      | some td =>
        match td.kind with
        | .term => some (writeCmdBytes STMT_TERM [])
        | .defn none => none
        | .defn (some val) =>
          match Reorder.new td.args.length val.heap.length with
          | none => none
          | some r0 =>
            match writeExprProof val.heap fuel r0 val.head false with
            | none => none
            | some (evs, _, _) =>
              some (writeCmdBytes (STMT_DEF ||| (if td.visLocal then STMT_LOCAL else 0))
                (pEvBytes evs ++ [0]))
    | some (.thm t) =>
      match env.thms[t]? with
      | none => none
      | some td =>
        match td.kind with
        | .axm =>
          match Reorder.new td.args.length td.heap.length with
          | none => none
          | some r0 =>
            match axHypsLoop td.heap fuel r0 td.hyps with
            | none => none
            | some (o1, r1) =>
              match writeExprProof td.heap fuel r1 td.ret false with
              | none => none
              | some (o2, _, _) =>
                some (writeCmdBytes STMT_AXIOM (pEvBytes (o1 ++ o2) ++ [0]))
        | .thm none => none
        | .thm (some prf) =>
          match Reorder.new td.args.length prf.heap.length with
          | none => none
          | some r0 =>
            match thmHypsLoop (thmArgsOf env) prf.heap fuel r0 [] prf.hyps with
            | none => none
            | some (o1, r1, eh) =>
              match writeProof (thmArgsOf env) prf.heap eh fuel r1 prf.head false with
              | none => none
              | some (o2, _, _) =>
                some (writeCmdBytes (STMT_THM ||| (if td.visPub then 0 else STMT_LOCAL))
                  (pEvBytes (o1 ++ o2) ++ [0]))

/-- An entry recorded for the debugging index: is-sort flag, atom id, and
the position of the statement command. -/
abbrev IdxEntry := Bool × Nat × Nat

/-- The proof body loop over the declaration trace, recording index
entries at the position of each statement command. -/
def stmtLoop (env : Env) (fuel : Nat) (index : Bool) :
    ExpSt → List IdxEntry → List StmtTrace → Option (ExpSt × List IdxEntry)
  | st, acc, [] => some (st, acc)
  | st, acc, .sort a :: rest =>
    stmtLoop env fuel index (wrB st (writeCmdBytes STMT_SORT []))
      (if index then acc ++ [(true, a, st.pos)] else acc) rest
  | st, acc, .decl a :: rest =>
    match stmtDeclBytes env fuel a with
    | none => none
    | some bs =>
      stmtLoop env fuel index (wrB st bs)
        (if index then acc ++ [(false, a, st.pos)] else acc) rest
  | st, acc, .global :: rest => stmtLoop env fuel index st acc rest
  | st, acc, .outputString :: rest => stmtLoop env fuel index st acc rest

/-- Proof body section of Exporter::run: commit p_proof at the current
(unaligned) position, write the statement records, then the final 0. -/
def runBody (env : Env) (fuel : Nat) (index : Bool) (fp : Nat) (st : ExpSt) :
    Option (ExpSt × Nat × List IdxEntry) :=
  let pP := st.pos
  let st1 := pushFix st fp (u64le pP)
  match stmtLoop env fuel index st1 [] env.stmts with
  | none => none
  | some (st2, entries) => some (wrB st2 [0], pP, entries)

/-- Byte-wise lexicographic comparison of names, the order used by the
index sort. -/
def byteLe : List Nat → List Nat → Bool
  | [], _ => true
  | _ :: _, [] => false
  | a :: as2, b :: bs => if a < b then true else if b < a then false else byteLe as2 bs

/-- Name of the atom of an index entry (empty for a missing atom; the
callers guard that every atom is present). -/
def idxName (env : Env) (e : IdxEntry) : List Nat :=
  match env.data[e.2.1]? with
  | some ad => ad.name
  | none => []

/-- The name-keyed entry order used by the index sort. -/
def idxLe (env : Env) (x y : IdxEntry) : Prop :=
  byteLe (idxName env x) (idxName env y) = true

instance (env : Env) : DecidableRel (idxLe env) := fun x y => by
  unfold idxLe
  infer_instance

/-- The sort of the recorded index entries by atom name (the source uses
an unstable sort keyed the same way; insertion sort realizes one of its
admissible outcomes, and the order theorem below is stated for every
name-sorted permutation). -/
def sortEntriesByName (env : Env) (l : List IdxEntry) : List IdxEntry :=
  List.insertionSort (idxLe env) l

/-- The per-id anchor slots of the index header. -/
structure IdxAnchors where
  sorts : List Nat
  terms : List Nat
  thms : List Nat
deriving DecidableEq, Repr

/-- Checked list update, a panic on out-of-range indices. -/
def setAt (l : List Nat) (i v : Nat) : Option (List Nat) :=
  if i < l.length then some (l.set i v) else none

/-- Resolved fields of one index entry record. -/
structure IdxInfo where
  line : Nat
  chr : Nat
  ix : Nat
  k : Nat
  name : List Nat
deriving DecidableEq, Repr

/-- Which anchor slot an index entry fills. -/
inductive IdxTarget where
  | sort (s : Nat)
  | term (t : Nat)
  | thm (t : Nat)
deriving DecidableEq, Repr

/-- Resolution of an index entry against the environment, as done inside
write_index_entry: sorts use the atom's sort, declarations the term or
theorem data, with the kind byte from the declaration kind and
visibility. -/
def idxResolve (env : Env) (e : IdxEntry) : Option (IdxInfo × IdxTarget) :=
  match env.data[e.2.1]? with
  | none => none
  | some ad =>
    if e.1 then
      match ad.sortOf with
      | none => none
      | some s => some (⟨ad.srcLine, ad.srcChar, s, STMT_SORT, ad.name⟩, .sort s)
    else
      match ad.declOf with
      | none => none
      | some (.term t) =>
        match env.terms[t]? with
        | none => none
        | some td =>
          some (⟨ad.srcLine, ad.srcChar, t,
            (match td.kind with
             | .term => STMT_TERM
             | .defn _ => if td.visLocal then STMT_DEF ||| STMT_LOCAL else STMT_DEF),
            ad.name⟩, .term t)
      | some (.thm t) =>
        match env.thms[t]? with
        | none => none
        | some td =>
          some (⟨ad.srcLine, ad.srcChar, t,
            (match td.kind with
             | .axm => STMT_AXIOM
             | .thm _ => if td.visPub then STMT_THM else STMT_THM ||| STMT_LOCAL),
            ad.name⟩, .thm t)

/-- Byte layout of one index entry record, after the leading alignment:
left child, right child, line, character, statement offset, id, kind
byte, then the NUL-terminated name. -/
def indexEntryBytes (il ir line chr cmd ix k : Nat) (name : List Nat) : List Nat :=
  u64le il ++ u64le ir ++ u32le line ++ u32le chr ++ u64le cmd ++ u32le ix ++
    [k] ++ name ++ [0]

/-- Exporter::write_index_entry: align to 8, resolve the entry, store the
aligned offset in the per-id anchor, check the name for embedded NULs and
write the record; returns the record offset. -/
def writeIndexEntryB (env : Env) (st : ExpSt) (anch : IdxAnchors) (il ir : Nat)
    (e : IdxEntry) : Option (ExpSt × IdxAnchors × Nat) :=
  let st1 := alignSt 8 st
  let n := st1.pos
  match idxResolve env e with
  | none => none
  | some (info, tgt) =>
    match (match tgt with
           | .sort s => (setAt anch.sorts s n).map (fun l => { anch with sorts := l })
           | .term t => (setAt anch.terms t n).map (fun l => { anch with terms := l })
           | .thm t => (setAt anch.thms t n).map (fun l => { anch with thms := l })) with
    | none => none
    | some anch2 =>
      if 0 ∈ info.name then none
      else
        some (wrB st1 (indexEntryBytes il ir info.line info.chr e.2.2 info.ix info.k info.name),
          anch2, n)

/-- Start of the equal-atom run that contains the median (the first
descending loop of write_index). -/
def runLo (m : List IdxEntry) (a : Nat) : Nat → Nat
  | 0 => 0
  | lo + 1 => if (m[lo]?).any (fun k => k.2.1 == a) then runLo m a lo else lo + 1

/-- End of the equal-atom run (the second ascending loop of
write_index). -/
def runHi (m : List IdxEntry) (a : Nat) (hi : Nat) : Nat :=
  if h : hi < m.length then
    if (m[hi]?).any (fun k => k.2.1 == a) then runHi m a (hi + 1) else hi
  else hi
termination_by m.length - hi

/-- The right-spine chain built by the base case of write_index for the
carried-over equal-name entries, byte level.  The accumulator n is the
offset of the chain built so far. -/
def chainB (env : Env) : ExpSt → IdxAnchors → Nat → List IdxEntry →
    Option (ExpSt × IdxAnchors × Nat)
  | st, anch, n, [] => some (st, anch, n)
  | st, anch, n, t :: rest =>
    match writeIndexEntryB env st anch 0 n t with
    | none => none
    | some (st1, anch1, n1) => chainB env st1 anch1 n1 rest

/-- Exporter::write_index, byte level: choose the median of the sorted
slice, widen to the equal-atom run, recurse left with the carried
entries, recurse right with the run tail carried, then write the root
entry. -/
def writeIndexB (env : Env) (st : ExpSt) (anch : IdxAnchors)
    (left m : List IdxEntry) : Option (ExpSt × IdxAnchors × Nat) :=
  match hm : m[m.length / 2]? with
  | none => chainB env st anch 0 left.reverse
  | some med =>
    match writeIndexB env st anch left (m.take (runLo m med.2.1 (m.length / 2))) with
    | none => none
    | some (st1, anch1, il) =>
      match writeIndexB env st1 anch1
        (List.take (runHi m med.2.1 (m.length / 2 + 1) -
            (runLo m med.2.1 (m.length / 2) + 1))
          (List.drop (runLo m med.2.1 (m.length / 2) + 1) m))
        (m.drop (runHi m med.2.1 (m.length / 2 + 1))) with
      | none => none
      | some (st2, anch2, ir) =>
        match m[runLo m med.2.1 (m.length / 2)]? with
        | none => none
        | some root => writeIndexEntryB env st2 anch2 il ir root
termination_by m.length
decreasing_by
  · have hlen : m.length / 2 < m.length := by
      rcases List.getElem?_eq_some_iff.1 hm with ⟨h2, _⟩
      exact h2
    have hlo : ∀ a0 lo0, runLo m a0 lo0 ≤ lo0 := by
      intro a0 lo0
      induction lo0 with
      | zero => simp [runLo]
      | succ k ih =>
        rw [runLo]
        split
        · omega
        · omega
    have := hlo med.2.1 (m.length / 2)
    simp only [List.length_take]
    omega
  · have hlen : m.length / 2 < m.length := by
      rcases List.getElem?_eq_some_iff.1 hm with ⟨h2, _⟩
      exact h2
    have hhi : ∀ d hi0, m.length ≤ hi0 + d → hi0 ≤ runHi m med.2.1 hi0 := by
      intro d
      induction d with
      | zero =>
        intro hi0 hle
        rw [runHi, dif_neg (by omega)]
      | succ d ih =>
        intro hi0 hle
        rw [runHi]
        by_cases h : hi0 < m.length
        · rw [dif_pos h]
          split
          · exact Nat.le_trans (Nat.le_succ hi0) (ih (hi0 + 1) (by omega))
          · exact Nat.le_refl hi0
        · rw [dif_neg h]
    have := hhi m.length (m.length / 2 + 1) (by omega)
    simp only [List.length_drop]
    omega

/-- Index section of Exporter::run: align, commit p_index, sort the
entries by name, reserve the root and anchor table, build the BST and
commit the table. -/
def runIndex (env : Env) (st : ExpSt) (fp : Nat) (entries : List IdxEntry) :
    Option (ExpSt × Nat) :=
  let st1 := alignSt 8 st
  let pI := st1.pos
  let st2 := pushFix st1 fp (u64le pI)
  if entries.all (fun e => (env.data[e.2.1]?).isSome) then
    let sorted := sortEntriesByName env entries
    let size := 1 + env.sorts.length + env.terms.length + env.thms.length
    let tablePos := st2.pos
    let st3 := wrB st2 (List.replicate (8 * size) 0)
    let anch0 : IdxAnchors := ⟨List.replicate env.sorts.length 0,
      List.replicate env.terms.length 0, List.replicate env.thms.length 0⟩
    match writeIndexB env st3 anch0 [] sorted with
    | none => none
    | some (st4, anch, root) =>
      some (pushFix st4 tablePos (u64le root ++ catBytes (anch.sorts.map u64le) ++
        catBytes (anch.terms.map u64le) ++ catBytes (anch.thms.map u64le)), pI)
  else none

/-- Observable result of Exporter::run: the writer state and the values
committed to the four forward pointers and the table slots. -/
structure ExpRes where
  st : ExpSt
  pTerms : Nat
  pThms : Nat
  pProof : Nat
  pIndex : Option Nat
  termOffs : List Nat
  thmOffs : List Nat
deriving DecidableEq, Repr

/-- Exporter::run. -/
def run (env : Env) (fuel : Nat) (index : Bool) : Option ExpRes :=
  match runHeaderSorts env with
  | none => none
  | some (st1, fpT, fpH, fpP, fpI) =>
    match runTerms env fuel fpT st1 with
    | none => none
    | some (st2, pT, tOffs) =>
      match runThms env fuel fpH st2 with
      | none => none
      | some (st3, pH, hOffs) =>
        match runBody env fuel index fpP st3 with
        | none => none
        | some (st4, pP, entries) =>
          if index then
            match runIndex env st4 fpI entries with
            | none => none
            | some (st5, pI) => some ⟨st5, pT, pH, pP, some pI, tOffs, hOffs⟩
          else
            some ⟨wrB st4 (u32le 0), pT, pH, pP, none, tOffs, hOffs⟩

/-- Patch bytes at a position (one seek-and-write of finish). -/
def patchAt (out : List Nat) (p : Nat) (v : List Nat) : List Nat :=
  out.take p ++ v ++ out.drop (p + v.length)

/-- Exporter::finish: apply the fixups in commit order. -/
def applyFixups (out : List Nat) : List (Nat × List Nat) → List Nat
  | [] => out
  | (p, v) :: rest => applyFixups (patchAt out p v) rest

/-- The whole export: run followed by finish. -/
def mmbExport (env : Env) (fuel : Nat) (index : Bool) : Option (List Nat) :=
  (run env fuel index).map (fun res => applyFixups res.st.out res.st.fixups)

/-- The pointer structure of the BST emitted by write_index: the same
median and equal-run recursion as writeIndexB, with each record's left
and right child offsets represented as subtrees. -/
inductive IdxTree where
  | leaf
  | node (e : IdxEntry) (l r : IdxTree)

/-- Tree form of Exporter::write_index. -/
def writeIndexT (left m : List IdxEntry) : IdxTree :=
  match hm : m[m.length / 2]? with
  | none => left.reverse.foldl (fun acc t => IdxTree.node t IdxTree.leaf acc) IdxTree.leaf
  | some med =>
    match m[runLo m med.2.1 (m.length / 2)]? with
    | none => IdxTree.leaf
    | some root =>
      IdxTree.node root (writeIndexT left (m.take (runLo m med.2.1 (m.length / 2))))
        (writeIndexT
          (List.take (runHi m med.2.1 (m.length / 2 + 1) -
              (runLo m med.2.1 (m.length / 2) + 1))
            (List.drop (runLo m med.2.1 (m.length / 2) + 1) m))
          (m.drop (runHi m med.2.1 (m.length / 2 + 1))))
termination_by m.length
decreasing_by
  · have hlen : m.length / 2 < m.length := by
      rcases List.getElem?_eq_some_iff.1 hm with ⟨h2, _⟩
      exact h2
    have hlo : ∀ a0 lo0, runLo m a0 lo0 ≤ lo0 := by
      intro a0 lo0
      induction lo0 with
      | zero => simp [runLo]
      | succ k ih =>
        rw [runLo]
        split
        · omega
        · omega
    have := hlo med.2.1 (m.length / 2)
    simp only [List.length_take]
    omega
  · have hlen : m.length / 2 < m.length := by
      rcases List.getElem?_eq_some_iff.1 hm with ⟨h2, _⟩
      exact h2
    have hhi : ∀ d hi0, m.length ≤ hi0 + d → hi0 ≤ runHi m med.2.1 hi0 := by
      intro d
      induction d with
      | zero =>
        intro hi0 hle
        rw [runHi, dif_neg (by omega)]
      | succ d ih =>
        intro hi0 hle
        rw [runHi]
        by_cases h : hi0 < m.length
        · rw [dif_pos h]
          split
          · exact Nat.le_trans (Nat.le_succ hi0) (ih (hi0 + 1) (by omega))
          · exact Nat.le_refl hi0
        · rw [dif_neg h]
    have := hhi m.length (m.length / 2 + 1) (by omega)
    simp only [List.length_drop]
    omega

/-- In-order walk of an emitted BST. -/
def inorderT : IdxTree → List IdxEntry
  | .leaf => []
  | .node e l r => inorderT l ++ e :: inorderT r

/-- Concatenation of unify event chunks. -/
def catEvs : List (List (Ev UCmd)) → List (Ev UCmd)
  | [] => []
  | o :: rest => o ++ catEvs rest

/-- The per-hypothesis serialization chain of a theorem unify stream:
each hypothesis is serialized from the reorder map and save accumulator
left by the previous one. -/
inductive HypChunks (heap : List ExprNode) (fuel : Nat) :
    Reorder → List Nat → List ExprNode → List (List (Ev UCmd)) → Reorder → List Nat → Prop
  | nil (r : Reorder) (sv : List Nat) : HypChunks heap fuel r sv [] [] r sv
  | cons (r : Reorder) (sv : List Nat) (h : ExprNode) (o : List (Ev UCmd))
      (r1 : Reorder) (sv1 : List Nat) (rest : List ExprNode)
      (chunks : List (List (Ev UCmd))) (r2 : Reorder) (sv2 : List Nat) :
      writeExprUnify heap fuel r sv h = some (o, r1, sv1) →
      HypChunks heap fuel r1 sv1 rest chunks r2 sv2 →
      HypChunks heap fuel r sv (h :: rest) (o :: chunks) r2 sv2

/-- The empty environment. -/
def emptyEnv : Env := ⟨[], [], [], [], []⟩

/-- A pure term c with no arguments returning sort 0. -/
def pureTermData : TermData := ⟨0, [], (0, 0), TermKind.term, false⟩

/-- An environment with one sort, the pure term and one axiom whose
statement applies the term; its theorem body ends at position 74. -/
def oneThmEnv : Env :=
  ⟨[0], [pureTermData],
   [⟨1, [], [], [], ExprNode.app 0 [], ThmKind.axm, false⟩], [], []⟩

/-- The run result with a default for the impossible none case, used to
name concrete results in closed statements. -/
def runD (env : Env) (fuel : Nat) (index : Bool) : ExpRes :=
  (run env fuel index).getD ⟨⟨[], 0, []⟩, 0, 0, 0, none, [], []⟩

/-- An environment with one sort named b and one pure term named a, for
the index order witness. -/
def idxEnv : Env :=
  ⟨[0], [⟨1, [], (0, 0), TermKind.term, false⟩], [],
   [StmtTrace.sort 0, StmtTrace.decl 1],
   [⟨[98], some 0, none, 0, 0⟩, ⟨[97], none, some (DeclKey.term 0), 0, 0⟩]⟩

/-- A theorem with one shared heap slot and two hypotheses, for the
unify stream witness. -/
def exThm : ThmData :=
  ⟨0, [], [ExprNode.app 0 []], [ExprNode.ref 0, ExprNode.app 0 []],
   ExprNode.ref 0, ThmKind.axm, false⟩

/-- The theorem body bytes with a default, used to name concrete results
in closed statements. -/
def thmBodyD (t : ThmData) (fuel : Nat) : List Nat := (thmBodyBytes t fuel).getD []

/-- The term body bytes with a default, used to name concrete results in
closed statements. -/
def termBodyD (t : TermData) (fuel : Nat) : List Nat := (termBodyBytes t fuel).getD []

/-- A definition with one bound argument whose value is its argument. -/
def exDefTerm : TermData :=
  ⟨0, [BinderTy.bound 0], (0, 1),
   TermKind.defn (some ⟨[ExprNode.ref 0], ExprNode.ref 0⟩), false⟩

/-- The concrete index entry write used by the layout witness. -/
def exIdxEntryRes : ExpSt × IdxAnchors × Nat :=
  (writeIndexEntryB idxEnv ⟨[], 0, []⟩ ⟨[0], [], []⟩ 0 0 (true, 0, 41)).getD
    (⟨[], 0, []⟩, ⟨[], [], []⟩, 0)

theorem boundCount_append (a b : List BinderTy) :
    boundCount (a ++ b) = boundCount a + boundCount b := by
  induction a with
  | nil => simp [boundCount]
  | cons x rest ih => cases x <;> simp [boundCount, ih] <;> omega

theorem writeBindersGo_overflow (args : List BinderTy) (c : Nat) :
    ((writeBindersGo (2 ^ c) args).2 = true ↔
      1 ≤ boundCount args ∧ 56 ≤ c + boundCount args) := by
  induction args generalizing c with
  | nil => simp [writeBindersGo, boundCount]
  | cons a rest ih =>
    cases a with
    | bound s =>
      by_cases h : (55 : Nat) ≤ c
      · have h2 : 2 ^ 55 ≤ 2 ^ c := Nat.pow_le_pow_right (by norm_num) h
        simp only [writeBindersGo, if_pos h2, boundCount]
        exact ⟨fun _ => ⟨by omega, by omega⟩, fun _ => trivial⟩
      · have h2 : ¬ (2 ^ 55 ≤ 2 ^ c) := by
          intro hle
          exact h ((Nat.pow_le_pow_iff_right (by norm_num)).1 hle)
        have hmul : 2 * 2 ^ c = 2 ^ (c + 1) := by ring
        simp only [writeBindersGo, if_neg h2, hmul, boundCount]
        rw [ih (c + 1)]
        omega
    | reg s deps =>
      simp only [writeBindersGo, boundCount]
      exact ih c

theorem writeBindersGo_get (args : List BinderTy) (c : Nat) (j : Nat)
    (h : c + boundCount args ≤ 55) :
    ((writeBindersGo (2 ^ c) args).1)[j]? = (args[j]?).map (fun a =>
      match a with
      | .bound s => sortDepsWord true s (2 ^ (c + boundCount (args.take j)))
      | .reg s deps => sortDepsWord false s deps) := by
  induction args generalizing c j with
  | nil => simp [writeBindersGo]
  | cons a rest ih =>
    cases a with
    | bound s =>
      have hc : ¬ (2 ^ 55 ≤ 2 ^ c) := by
        intro hle
        have := (Nat.pow_le_pow_iff_right (a := 2) (by norm_num)).1 hle
        simp [boundCount] at h
        omega
      have hmul : 2 * 2 ^ c = 2 ^ (c + 1) := by ring
      simp only [writeBindersGo, if_neg hc, hmul]
      cases j with
      | zero => simp [boundCount]
      | succ j =>
        have h2 : (c + 1) + boundCount rest ≤ 55 := by
          simp [boundCount] at h; omega
        simp only [List.getElem?_cons_succ, List.take_succ_cons, boundCount]
        have he : c + (boundCount (rest.take j) + 1) =
            (c + 1) + boundCount (rest.take j) := by omega
        rw [he]
        exact ih (c + 1) j h2
    | reg s deps =>
      have h2 : c + boundCount rest ≤ 55 := by simp [boundCount] at h; omega
      simp only [writeBindersGo]
      cases j with
      | zero => simp
      | succ j =>
        simp only [List.getElem?_cons_succ, List.take_succ_cons, boundCount]
        exact ih c j h2

theorem writeBindersGo_len (args : List BinderTy) (bv : Nat)
    (h : (writeBindersGo bv args).2 = false) :
    (writeBindersGo bv args).1.length = args.length := by
  induction args generalizing bv with
  | nil => simp [writeBindersGo]
  | cons a rest ih =>
    cases a with
    | bound s =>
      by_cases h2 : 2 ^ 55 ≤ bv
      · rw [writeBindersGo, if_pos h2] at h
        exact absurd h (by simp)
      · rw [writeBindersGo, if_neg h2] at h
        rw [writeBindersGo, if_neg h2]
        simp [ih (2 * bv) h]
    | reg s deps =>
      rw [writeBindersGo] at h
      rw [writeBindersGo]
      simp [ih bv h]

theorem testBit_sortDepsWord (bd : Bool) (s deps b : Nat) :
    (sortDepsWord bd s deps).testBit b =
      ((bd && decide (b = 63)) ||
        (decide (56 ≤ b) && s.testBit (b - 56)) || deps.testBit b) := by
  have hone : ∀ k, Nat.testBit 1 k = decide (k = 0) := by
    intro k
    cases k with
    | zero => simp
    | succ k => simp [Nat.testBit_succ]
  cases bd with
  | false =>
    simp only [sortDepsWord, Bool.toNat_false, Nat.testBit_lor,
      Nat.testBit_shiftLeft, Nat.zero_testBit, Bool.and_false, Bool.false_or,
      Bool.false_and]
  | true =>
    simp only [sortDepsWord, Bool.toNat_true, Nat.testBit_lor,
      Nat.testBit_shiftLeft, hone, Bool.true_and]
    have h3 : (decide (b ≥ 63) && decide (b - 63 = 0)) = decide (b = 63) := by
      rcases Nat.lt_or_ge b 63 with h | h
      · simp [decide_eq_false (by omega : ¬ b ≥ 63), decide_eq_false (by omega : ¬ b = 63)]
      · rcases Nat.eq_or_lt_of_le h with h2 | h2
        · rw [← h2]
          norm_num
        · simp [decide_eq_true (by omega : b ≥ 63), decide_eq_false (by omega : ¬ b - 63 = 0),
            decide_eq_false (by omega : ¬ b = 63)]
    rw [h3]

/-- Claim C7: for a declaration with at most 55 bound binders,
write_binders aborts nowhere; the i-th bound binder (0-indexed among the
bound binders) gets a word with bit 63 set, the sort in bits 62..56 and
dependency mask exactly 2 to the i; a regular binder Reg(s, deps) gets a
word with bit 63 clear, the sort in bits 62..56 and dependency mask deps
verbatim. -/
theorem binder_bit_packing (args : List BinderTy)
    (hk : boundCount args ≤ 55) :
    (writeBinders args).2 = false ∧
    (writeBinders args).1.length = args.length ∧
    (∀ j s : Nat, args[j]? = some (.bound s) →
      ∃ w, (writeBinders args).1[j]? = some w ∧
        w.testBit 63 = true ∧
        (∀ b, b < 7 → w.testBit (56 + b) = s.testBit b) ∧
        (∀ b, b < 56 → (w.testBit b = true ↔ b = boundCount (args.take j)))) ∧
    (∀ j s deps : Nat, args[j]? = some (.reg s deps) → s < 128 → deps < 2 ^ 56 →
      ∃ w, (writeBinders args).1[j]? = some w ∧
        w.testBit 63 = false ∧
        (∀ b, b < 7 → w.testBit (56 + b) = s.testBit b) ∧
        (∀ b, b < 56 → w.testBit b = deps.testBit b)) := by
  have hnp : (writeBinders args).2 = false := by
    have h1 := writeBindersGo_overflow args 0
    simp only [pow_zero] at h1
    unfold writeBinders
    rcases h2 : (writeBindersGo 1 args).2 with _ | _
    · rfl
    · rw [h2] at h1
      simp at h1
      omega
  have hget := fun j => writeBindersGo_get args 0 j (by omega)
  simp only [pow_zero, Nat.zero_add] at hget
  refine ⟨hnp, writeBindersGo_len args 1 hnp, ?_, ?_⟩
  · intro j s hj
    have hw := hget j
    rw [hj] at hw
    simp only [Option.map_some'] at hw
    refine ⟨_, hw, ?_, ?_, ?_⟩
    · simp [testBit_sortDepsWord]
    · intro b hb
      have hi : boundCount (args.take j) < 56 := by
        have h1 : args.take (j + 1) = args.take j ++ [BinderTy.bound s] := by
          rw [List.take_succ, hj]
          rfl
        have h2 : boundCount (args.take (j + 1)) + boundCount (args.drop (j + 1))
            = boundCount args := by
          rw [← boundCount_append, List.take_append_drop]
        rw [h1, boundCount_append] at h2
        simp [boundCount] at h2
        omega
      rw [testBit_sortDepsWord]
      have h2 : (2 ^ boundCount (args.take j)).testBit (56 + b) = false := by
        apply Nat.testBit_two_pow_of_ne
        omega
      simp [h2, decide_eq_false (by omega : ¬ (56 + b) = 63), Nat.add_sub_cancel_left]
    · intro b hb
      rw [testBit_sortDepsWord]
      simp only [Bool.true_and, decide_eq_false (by omega : ¬ b = 63),
        decide_eq_false (by omega : ¬ 56 ≤ b), Bool.false_and, Bool.false_or]
      constructor
      · intro h
        by_contra hne
        rw [Nat.testBit_two_pow_of_ne (fun he => hne he.symm)] at h
        exact Bool.false_ne_true h
      · intro h
        subst h
        simp
  · intro j s deps hj hs hd
    have hw := hget j
    rw [hj] at hw
    simp only [Option.map_some'] at hw
    refine ⟨_, hw, ?_, ?_, ?_⟩
    · rw [testBit_sortDepsWord]
      have h1 : s.testBit 7 = false := Nat.testBit_lt_two_pow (by
        calc s < 128 := hs
          _ ≤ 2 ^ 7 := by norm_num)
      have h2 : deps.testBit 63 = false := Nat.testBit_lt_two_pow (by
        calc deps < 2 ^ 56 := hd
          _ ≤ 2 ^ 63 := Nat.pow_le_pow_right (by norm_num) (by norm_num))
      simp [h1, h2]
    · intro b hb
      rw [testBit_sortDepsWord]
      have h2 : deps.testBit (56 + b) = false := Nat.testBit_lt_two_pow (by
        calc deps < 2 ^ 56 := hd
          _ ≤ 2 ^ (56 + b) := Nat.pow_le_pow_right (by norm_num) (by omega))
      simp [h2, decide_eq_false (by omega : ¬ (56 + b) = 63), Nat.add_sub_cancel_left]
    · intro b hb
      rw [testBit_sortDepsWord]
      simp [decide_eq_false (by omega : ¬ b = 63),
        decide_eq_false (by omega : ¬ 56 ≤ b)]

/-- Witness for binder_bit_packing at a concrete argument list. -/
theorem binder_bit_packing_witness :
    boundCount [BinderTy.bound 1, BinderTy.reg 0 1, BinderTy.bound 2] ≤ 55 ∧
    ((writeBinders [BinderTy.bound 1, BinderTy.reg 0 1, BinderTy.bound 2]).2 = false ∧
    (writeBinders [BinderTy.bound 1, BinderTy.reg 0 1, BinderTy.bound 2]).1.length =
      ([BinderTy.bound 1, BinderTy.reg 0 1, BinderTy.bound 2] : List BinderTy).length ∧
    (∀ j s : Nat, ([BinderTy.bound 1, BinderTy.reg 0 1, BinderTy.bound 2] :
        List BinderTy)[j]? = some (.bound s) →
      ∃ w, (writeBinders [BinderTy.bound 1, BinderTy.reg 0 1, BinderTy.bound 2]).1[j]? = some w ∧
        w.testBit 63 = true ∧
        (∀ b, b < 7 → w.testBit (56 + b) = s.testBit b) ∧
        (∀ b, b < 56 → (w.testBit b = true ↔
          b = boundCount (([BinderTy.bound 1, BinderTy.reg 0 1, BinderTy.bound 2] :
            List BinderTy).take j)))) ∧
    (∀ j s deps : Nat, ([BinderTy.bound 1, BinderTy.reg 0 1, BinderTy.bound 2] :
        List BinderTy)[j]? = some (.reg s deps) → s < 128 → deps < 2 ^ 56 →
      ∃ w, (writeBinders [BinderTy.bound 1, BinderTy.reg 0 1, BinderTy.bound 2]).1[j]? = some w ∧
        w.testBit 63 = false ∧
        (∀ b, b < 7 → w.testBit (56 + b) = s.testBit b) ∧
        (∀ b, b < 56 → w.testBit b = deps.testBit b))) :=
  ⟨by decide, binder_bit_packing [BinderTy.bound 1, BinderTy.reg 0 1, BinderTy.bound 2] (by decide)⟩

/-- Claim C8: write_binders fails fatally exactly when the argument list
contains more than 55 bound binders, and on reaching the 56th bound binder
the words already emitted are exactly those of the arguments before it,
so the 56th bound word is never written. -/
theorem write_binders_overflow :
    (∀ args : List BinderTy,
      ((writeBinders args).2 = true ↔ 56 ≤ boundCount args)) ∧
    (∀ pre suf : List BinderTy, ∀ s : Nat, boundCount pre = 55 →
      writeBinders (pre ++ BinderTy.bound s :: suf) = ((writeBinders pre).1, true)) := by
  constructor
  · intro args
    have h1 := writeBindersGo_overflow args 0
    simp only [pow_zero] at h1
    unfold writeBinders
    rw [h1]
    omega
  · intro pre suf s hpre
    have key : ∀ (xs : List BinderTy) (c : Nat), c + boundCount xs = 55 →
        writeBindersGo (2 ^ c) (xs ++ BinderTy.bound s :: suf) =
          ((writeBindersGo (2 ^ c) xs).1, true) := by
      intro xs
      induction xs with
      | nil =>
        intro c hc
        simp only [boundCount, Nat.add_zero] at hc
        subst hc
        simp [writeBindersGo]
      | cons a rest ih =>
        intro c hc
        cases a with
        | bound s2 =>
          simp only [boundCount] at hc
          have hcle : ¬ (2 ^ 55 ≤ 2 ^ c) := by
            intro hle
            have := (Nat.pow_le_pow_iff_right (a := 2) (by norm_num)).1 hle
            omega
          have hmul : 2 * 2 ^ c = 2 ^ (c + 1) := by ring
          simp only [List.cons_append, writeBindersGo, if_neg hcle, hmul, List.append_eq]
          rw [ih (c + 1) (by omega)]
        | reg s2 d2 =>
          simp only [boundCount] at hc
          simp only [List.cons_append, writeBindersGo, List.append_eq]
          rw [ih c hc]
    have h := key pre 0 (by omega)
    simpa [writeBinders] using h

/-- Witness for write_binders_overflow: 55 bound binders succeed; a 56th
aborts with only the first 55 words written. -/
theorem write_binders_overflow_witness :
    boundCount (List.replicate 55 (BinderTy.bound 0)) = 55 ∧
    writeBinders (List.replicate 55 (BinderTy.bound 0) ++ BinderTy.bound 0 :: []) =
      ((writeBinders (List.replicate 55 (BinderTy.bound 0))).1, true) :=
  ⟨by decide,
    write_binders_overflow.2 (List.replicate 55 (BinderTy.bound 0)) [] 0 (by decide)⟩

theorem alignPad_two (pos : Nat) : alignPad 2 pos = (2 + 256 - pos % 256) % 256 % 2 := by
  have h := Nat.and_pow_two_sub_one_eq_mod ((2 + 256 - pos % 256) % 256) 1
  simpa [alignPad] using h

theorem alignPad_four (pos : Nat) : alignPad 4 pos = (4 + 256 - pos % 256) % 256 % 4 := by
  have h := Nat.and_pow_two_sub_one_eq_mod ((4 + 256 - pos % 256) % 256) 2
  simpa [alignPad] using h

theorem alignPad_eight (pos : Nat) : alignPad 8 pos = (8 + 256 - pos % 256) % 256 % 8 := by
  have h := Nat.and_pow_two_sub_one_eq_mod ((8 + 256 - pos % 256) % 256) 3
  simpa [alignPad] using h

/-- Claim C9: for n in {2,4,8}, align_to appends the minimal number of
zero bytes (zero when the position is a multiple of n, at most n - 1
otherwise) so that the new position is a multiple of n, and returns the
new position. -/
theorem align_to_spec (n pos : Nat) (hn : n = 2 ∨ n = 4 ∨ n = 8) :
    (alignTo n pos).1 = List.replicate (alignPad n pos) 0 ∧
    (alignTo n pos).2 = pos + alignPad n pos ∧
    (alignTo n pos).2 % n = 0 ∧
    alignPad n pos < n ∧
    (pos % n = 0 → alignPad n pos = 0) ∧
    (∀ k, (pos + k) % n = 0 → alignPad n pos ≤ k) := by
  rcases hn with h | h | h <;> subst h
  · rw [alignTo, alignPad_two]
    refine ⟨rfl, rfl, by omega, by omega, by omega, fun k hk => by omega⟩
  · rw [alignTo, alignPad_four]
    refine ⟨rfl, rfl, by omega, by omega, by omega, fun k hk => by omega⟩
  · rw [alignTo, alignPad_eight]
    refine ⟨rfl, rfl, by omega, by omega, by omega, fun k hk => by omega⟩

theorem commitSave_getElem?_of_not_mem (m : List (Option Nat)) (sv : List Nat) (n i : Nat)
    (h : i ∉ sv) : (commitSave m sv n)[i]? = m[i]? := by
  induction sv generalizing m with
  | nil => rfl
  | cons a rest ih =>
    have h2 : i ∉ rest := fun hh => h (List.mem_cons_of_mem a hh)
    have hne : a ≠ i := fun he => h (he ▸ List.mem_cons_self a rest)
    show (commitSave (m.set a (some n)) rest n)[i]? = m[i]?
    rw [ih (m.set a (some n)) h2]
    exact List.getElem?_set_ne hne

theorem writeExprProof_preserve (heap : List ExprNode) (fuel : Nat) :
    (∀ r node save out r1 n,
       writeExprProof heap fuel r node save = some (out, r1, n) →
       ∀ i v, r.map[i]? = some (some v) →
         r1.map[i]? = some (some v) ∧ Ev.expand i ∉ out) ∧
    (∀ r es out r1,
       writeExprProofList heap fuel r es = some (out, r1) →
       ∀ i v, r.map[i]? = some (some v) →
         r1.map[i]? = some (some v) ∧ Ev.expand i ∉ out) := by
  induction fuel with
  | zero =>
    constructor
    · intro r node save out r1 n h
      simp [writeExprProof] at h
    · intro r es out r1 h
      simp [writeExprProofList] at h
  | succ fuel ih =>
    obtain ⟨ihP, ihL⟩ := ih
    constructor
    · intro r node save out r1 n h i v hiv
      cases node with
      | ref j =>
        simp only [writeExprProof] at h
        split at h
        · exact absurd h (by simp)
        · next n0 hm =>
          simp only [Option.some.injEq, Prod.mk.injEq] at h
          obtain ⟨hout, hr1, _⟩ := h
          subst hout hr1
          exact ⟨hiv, by simp⟩
        · next hm =>
          split at h
          · exact absurd h (by simp)
          · next e he =>
            split at h
            · exact absurd h (by simp)
            · next out0 r0 n0 hrec =>
              simp only [Option.some.injEq, Prod.mk.injEq] at h
              obtain ⟨hout, hr1, _⟩ := h
              subst hout
              obtain ⟨hp, hne⟩ := ihP r e true out0 r0 n0 hrec i v hiv
              have hij : j ≠ i := by
                intro hji
                rw [hji, hiv] at hm
                simp at hm
              constructor
              · rw [← hr1]
                show (r0.map.set j (some n0))[i]? = some (some v)
                rw [List.getElem?_set_ne hij]
                exact hp
              · simp only [List.mem_cons]
                rintro (hc | hc)
                · exact hij (by injection hc with hh; exact hh.symm)
                · exact hne hc
      | dummy s =>
        simp only [writeExprProof, Option.some.injEq, Prod.mk.injEq] at h
        obtain ⟨hout, hr1, _⟩ := h
        subst hout
        rw [← hr1]
        exact ⟨hiv, by simp⟩
      | app tid es =>
        simp only [writeExprProof] at h
        split at h
        · exact absurd h (by simp)
        · next out0 r0 hrec =>
          obtain ⟨hp, hne⟩ := ihL r es out0 r0 hrec i v hiv
          cases save with
          | true =>
            rw [if_pos rfl] at h
            simp only [Option.some.injEq, Prod.mk.injEq] at h
            obtain ⟨hout, hr1, _⟩ := h
            subst hout
            rw [← hr1]
            refine ⟨hp, ?_⟩
            simp only [List.mem_append, List.mem_singleton]
            rintro (hc | hc)
            · exact hne hc
            · exact absurd hc (by simp)
          | false =>
            rw [if_neg (by simp)] at h
            simp only [Option.some.injEq, Prod.mk.injEq] at h
            obtain ⟨hout, hr1, _⟩ := h
            subst hout hr1
            refine ⟨hp, ?_⟩
            simp only [List.mem_append, List.mem_singleton]
            rintro (hc | hc)
            · exact hne hc
            · exact absurd hc (by simp)
    · intro r es out r1 h i v hiv
      cases es with
      | nil =>
        simp only [writeExprProofList, Option.some.injEq, Prod.mk.injEq] at h
        obtain ⟨hout, hr1⟩ := h
        subst hout hr1
        exact ⟨hiv, by simp⟩
      | cons e es =>
        simp only [writeExprProofList] at h
        split at h
        · exact absurd h (by simp)
        · next out0 r0 n0 hrec =>
          split at h
          · exact absurd h (by simp)
          · next out2 r2 hrec2 =>
            simp only [Option.some.injEq, Prod.mk.injEq] at h
            obtain ⟨hout, hr1⟩ := h
            subst hout hr1
            obtain ⟨hp, hne⟩ := ihP r e false out0 r0 n0 hrec i v hiv
            obtain ⟨hp2, hne2⟩ := ihL r0 es out2 r2 hrec2 i v hp
            refine ⟨hp2, ?_⟩
            simp only [List.mem_append]
            rintro (hc | hc)
            · exact hne hc
            · exact hne2 hc

theorem writeExprUnify_preserve (heap : List ExprNode) (fuel : Nat) :
    (∀ r sv node out r1 sv1,
       writeExprUnify heap fuel r sv node = some (out, r1, sv1) →
       (∀ j, j ∈ sv → r.map[j]? = some none) →
       ((∀ i v, r.map[i]? = some (some v) →
          r1.map[i]? = some (some v) ∧ Ev.expand i ∉ out) ∧
        (∀ j, j ∈ sv1 → r1.map[j]? = some none))) ∧
    (∀ r sv es out r1 sv1,
       writeExprUnifyList heap fuel r sv es = some (out, r1, sv1) →
       (∀ j, j ∈ sv → r.map[j]? = some none) →
       ((∀ i v, r.map[i]? = some (some v) →
          r1.map[i]? = some (some v) ∧ Ev.expand i ∉ out) ∧
        (∀ j, j ∈ sv1 → r1.map[j]? = some none))) := by
  induction fuel with
  | zero =>
    constructor
    · intro r sv node out r1 sv1 h
      simp [writeExprUnify] at h
    · intro r sv es out r1 sv1 h
      simp [writeExprUnifyList] at h
  | succ fuel ih =>
    obtain ⟨ihU, ihL⟩ := ih
    have hnotmem : ∀ (r : Reorder) (sv : List Nat) (i v : Nat),
        (∀ j, j ∈ sv → r.map[j]? = some none) →
        r.map[i]? = some (some v) → i ∉ sv := by
      intro r sv i v hinv hiv hmem
      rw [hinv i hmem] at hiv
      simp at hiv
    constructor
    · intro r sv node out r1 sv1 h hinv
      cases node with
      | ref j =>
        simp only [writeExprUnify] at h
        split at h
        · exact absurd h (by simp)
        · next n0 hm =>
          simp only [Option.some.injEq, Prod.mk.injEq] at h
          obtain ⟨hout, hr1, hsv1⟩ := h
          subst hout hsv1
          constructor
          · intro i v hiv
            have hni : i ∉ sv := hnotmem r sv i v hinv hiv
            rw [← hr1]
            exact ⟨by
              show (commitSave r.map sv n0)[i]? = some (some v)
              rw [commitSave_getElem?_of_not_mem r.map sv n0 i hni]
              exact hiv, by simp⟩
          · intro j2 hj2
            exact absurd hj2 (by simp)
        · next hm =>
          split at h
          · exact absurd h (by simp)
          · next e he =>
            split at h
            · exact absurd h (by simp)
            · next out0 r0 sv0 hrec =>
              simp only [Option.some.injEq, Prod.mk.injEq] at h
              obtain ⟨hout, hr1, hsv1⟩ := h
              subst hout hr1 hsv1
              have hinv2 : ∀ j2, j2 ∈ sv ++ [j] → r.map[j2]? = some none := by
                intro j2 hj2
                rcases List.mem_append.1 hj2 with hj2 | hj2
                · exact hinv j2 hj2
                · simp only [List.mem_singleton] at hj2
                  subst hj2
                  exact hm
              obtain ⟨hmono, hsvinv⟩ := ihU r (sv ++ [j]) e out0 r0 sv0 hrec hinv2
              constructor
              · intro i v hiv
                obtain ⟨hp, hne⟩ := hmono i v hiv
                have hij : j ≠ i := by
                  intro hji
                  rw [hji, hiv] at hm
                  simp at hm
                refine ⟨hp, ?_⟩
                simp only [List.mem_cons]
                rintro (hc | hc)
                · exact hij (by injection hc with hh; exact hh.symm)
                · exact hne hc
              · exact hsvinv
      | dummy s =>
        simp only [writeExprUnify, Option.some.injEq, Prod.mk.injEq] at h
        obtain ⟨hout, hr1, hsv1⟩ := h
        subst hout hsv1
        constructor
        · intro i v hiv
          have hni : i ∉ sv := hnotmem r sv i v hinv hiv
          rw [← hr1]
          exact ⟨by
            show (commitSave r.map sv r.idx)[i]? = some (some v)
            rw [commitSave_getElem?_of_not_mem r.map sv r.idx i hni]
            exact hiv, by simp⟩
        · intro j2 hj2
          exact absurd hj2 (by simp)
      | app tid es =>
        cases sv with
        | nil =>
          simp only [writeExprUnify] at h
          split at h
          · exact absurd h (by simp)
          · next out0 r0 sv0 hrec =>
            simp only [Option.some.injEq, Prod.mk.injEq] at h
            obtain ⟨hout, hr1, hsv1⟩ := h
            subst hout hr1 hsv1
            obtain ⟨hmono, hsvinv⟩ := ihL r [] es out0 r0 sv0 hrec (by simp)
            constructor
            · intro i v hiv
              obtain ⟨hp, hne⟩ := hmono i v hiv
              refine ⟨hp, ?_⟩
              simp only [List.mem_cons]
              rintro (hc | hc)
              · exact absurd hc (by simp)
              · exact hne hc
            · exact hsvinv
        | cons a rest =>
          simp only [writeExprUnify] at h
          split at h
          · exact absurd h (by simp)
          · next out0 r0 sv0 hrec =>
            simp only [Option.some.injEq, Prod.mk.injEq] at h
            obtain ⟨hout, hr1, hsv1⟩ := h
            subst hout hr1 hsv1
            obtain ⟨hmono, hsvinv⟩ :=
              ihL ⟨commitSave r.map (a :: rest) r.idx, r.idx + 1⟩ [] es out0 r0 sv0 hrec
                (by simp)
            constructor
            · intro i v hiv
              have hni : i ∉ a :: rest := hnotmem r (a :: rest) i v hinv hiv
              have hstep : (⟨commitSave r.map (a :: rest) r.idx, r.idx + 1⟩ :
                  Reorder).map[i]? = some (some v) := by
                show (commitSave r.map (a :: rest) r.idx)[i]? = some (some v)
                rw [commitSave_getElem?_of_not_mem r.map (a :: rest) r.idx i hni]
                exact hiv
              obtain ⟨hp, hne⟩ := hmono i v hstep
              refine ⟨hp, ?_⟩
              simp only [List.mem_cons]
              rintro (hc | hc)
              · exact absurd hc (by simp)
              · exact hne hc
            · exact hsvinv
    · intro r sv es out r1 sv1 h hinv
      cases es with
      | nil =>
        simp only [writeExprUnifyList, Option.some.injEq, Prod.mk.injEq] at h
        obtain ⟨hout, hr1, hsv1⟩ := h
        subst hout hr1 hsv1
        exact ⟨fun i v hiv => ⟨hiv, by simp⟩, hinv⟩
      | cons e es =>
        simp only [writeExprUnifyList] at h
        split at h
        · exact absurd h (by simp)
        · next out0 r0 sv0 hrec =>
          split at h
          · exact absurd h (by simp)
          · next out2 r2 sv2 hrec2 =>
            simp only [Option.some.injEq, Prod.mk.injEq] at h
            obtain ⟨hout, hr1, hsv1⟩ := h
            subst hout hr1 hsv1
            obtain ⟨hmono, hsvinv⟩ := ihU r sv e out0 r0 sv0 hrec hinv
            obtain ⟨hmono2, hsvinv2⟩ := ihL r0 sv0 es out2 r2 sv2 hrec2 hsvinv
            constructor
            · intro i v hiv
              obtain ⟨hp, hne⟩ := hmono i v hiv
              obtain ⟨hp2, hne2⟩ := hmono2 i v hp
              refine ⟨hp2, ?_⟩
              simp only [List.mem_append]
              rintro (hc | hc)
              · exact hne hc
              · exact hne2 hc
            · exact hsvinv2

theorem writeProof_preserve (thmArgs : Nat → Option Nat) (heap : List ProofNode)
    (hyps : List Nat) (fuel : Nat) :
    (∀ r node save out r1 n,
       writeProof thmArgs heap hyps fuel r node save = some (out, r1, n) →
       ∀ i v, r.map[i]? = some (some v) →
         r1.map[i]? = some (some v) ∧ Ev.expand i ∉ out) ∧
    (∀ r es out r1,
       writeProofList thmArgs heap hyps fuel r es = some (out, r1) →
       ∀ i v, r.map[i]? = some (some v) →
         r1.map[i]? = some (some v) ∧ Ev.expand i ∉ out) ∧
    (∀ r node out r1,
       writeConv thmArgs heap hyps fuel r node = some (out, r1) →
       ∀ i v, r.map[i]? = some (some v) →
         r1.map[i]? = some (some v) ∧ Ev.expand i ∉ out) ∧
    (∀ r es out r1,
       writeConvList thmArgs heap hyps fuel r es = some (out, r1) →
       ∀ i v, r.map[i]? = some (some v) →
         r1.map[i]? = some (some v) ∧ Ev.expand i ∉ out) := by
  induction fuel with
  | zero =>
    refine ⟨?_, ?_, ?_, ?_⟩
    · intro r node save out r1 n h
      simp [writeProof] at h
    · intro r es out r1 h
      simp [writeProofList] at h
    · intro r node out r1 h
      simp [writeConv] at h
    · intro r es out r1 h
      simp [writeConvList] at h
  | succ fuel ih =>
    obtain ⟨ihP, ihL, ihC, ihCL⟩ := ih
    have hstep : ∀ (out1 out2 : List (Ev PCmd)) (r0 r1 r2 : Reorder),
        (∀ i v, r0.map[i]? = some (some v) →
          r1.map[i]? = some (some v) ∧ Ev.expand i ∉ out1) →
        (∀ i v, r1.map[i]? = some (some v) →
          r2.map[i]? = some (some v) ∧ Ev.expand i ∉ out2) →
        ∀ i v, r0.map[i]? = some (some v) →
          r2.map[i]? = some (some v) ∧ Ev.expand i ∉ out1 ++ out2 := by
      intro out1 out2 r0 r1 r2 h1 h2 i v hiv
      obtain ⟨hp1, hn1⟩ := h1 i v hiv
      obtain ⟨hp2, hn2⟩ := h2 i v hp1
      refine ⟨hp2, ?_⟩
      simp only [List.mem_append]
      rintro (hc | hc)
      · exact hn1 hc
      · exact hn2 hc
    have hP : ∀ r node save out r1 n,
        writeProof thmArgs heap hyps (fuel + 1) r node save = some (out, r1, n) →
        ∀ i v, r.map[i]? = some (some v) →
          r1.map[i]? = some (some v) ∧ Ev.expand i ∉ out := by
      intro r node save out r1 n h i v hiv
      cases node with
      | ref j =>
        simp only [writeProof] at h
        split at h
        · exact absurd h (by simp)
        · next n0 hm =>
          simp only [Option.some.injEq, Prod.mk.injEq] at h
          obtain ⟨hout, hr1, _⟩ := h
          subst hout hr1
          exact ⟨hiv, by simp⟩
        · next hm =>
          split at h
          · exact absurd h (by simp)
          · next e he =>
            split at h
            · exact absurd h (by simp)
            · next out0 r0 n0 hrec =>
              simp only [Option.some.injEq, Prod.mk.injEq] at h
              obtain ⟨hout, hr1, _⟩ := h
              subst hout
              obtain ⟨hp, hne⟩ := ihP r e true out0 r0 n0 hrec i v hiv
              have hij : j ≠ i := by
                intro hji
                rw [hji, hiv] at hm
                simp at hm
              constructor
              · rw [← hr1]
                show (r0.map.set j (some n0))[i]? = some (some v)
                rw [List.getElem?_set_ne hij]
                exact hp
              · simp only [List.mem_cons]
                rintro (hc | hc)
                · exact hij (by injection hc with hh; exact hh.symm)
                · exact hne hc
      | dummy s =>
        simp only [writeProof, Option.some.injEq, Prod.mk.injEq] at h
        obtain ⟨hout, hr1, _⟩ := h
        subst hout
        rw [← hr1]
        exact ⟨hiv, by simp⟩
      | term tid args =>
        simp only [writeProof] at h
        split at h
        · exact absurd h (by simp)
        · next out0 r0 hrec =>
          obtain ⟨hp, hne⟩ := ihL r args out0 r0 hrec i v hiv
          cases save with
          | true =>
            rw [if_pos rfl] at h
            simp only [Option.some.injEq, Prod.mk.injEq] at h
            obtain ⟨hout, hr1, _⟩ := h
            subst hout
            rw [← hr1]
            refine ⟨hp, ?_⟩
            simp only [List.mem_append, List.mem_singleton]
            rintro (hc | hc)
            · exact hne hc
            · exact absurd hc (by simp)
          | false =>
            rw [if_neg (by simp)] at h
            simp only [Option.some.injEq, Prod.mk.injEq] at h
            obtain ⟨hout, hr1, _⟩ := h
            subst hout hr1
            refine ⟨hp, ?_⟩
            simp only [List.mem_append, List.mem_singleton]
            rintro (hc | hc)
            · exact hne hc
            · exact absurd hc (by simp)
      | hyp n2 e =>
        simp only [writeProof] at h
        split at h
        · exact absurd h (by simp)
        · next m hm =>
          simp only [Option.some.injEq, Prod.mk.injEq] at h
          obtain ⟨hout, hr1, _⟩ := h
          subst hout hr1
          exact ⟨hiv, by simp⟩
      | thm tid args res =>
        simp only [writeProof] at h
        split at h
        · exact absurd h (by simp)
        · next k hk =>
          split at h
          · split at h
            · exact absurd h (by simp)
            · next out1 r1x hrec1 =>
              split at h
              · exact absurd h (by simp)
              · next out2 r2x hrec2 =>
                split at h
                · exact absurd h (by simp)
                · next out3 r3x n3 hrec3 =>
                  have hc12 := hstep out1 out2 r r1x r2x
                    (fun i v hiv => ihL r (args.drop k) out1 r1x hrec1 i v hiv)
                    (fun i v hiv => ihL r1x (args.take k) out2 r2x hrec2 i v hiv)
                  have hc123 := hstep (out1 ++ out2) out3 r r2x r3x hc12
                    (fun i v hiv => ihP r2x res false out3 r3x n3 hrec3 i v hiv)
                  cases save with
                  | true =>
                    rw [if_pos rfl] at h
                    simp only [Option.some.injEq, Prod.mk.injEq] at h
                    obtain ⟨hout, hr1, _⟩ := h
                    subst hout
                    obtain ⟨hp, hne⟩ := hc123 i v hiv
                    refine ⟨by rw [← hr1]; exact hp, ?_⟩
                    simp only [List.append_assoc, List.mem_append, List.mem_singleton] at hne ⊢
                    rintro (hc | hc | hc | hc)
                    · exact hne (Or.inl hc)
                    · exact hne (Or.inr (Or.inl hc))
                    · exact hne (Or.inr (Or.inr hc))
                    · exact absurd hc (by simp)
                  | false =>
                    rw [if_neg (by simp)] at h
                    simp only [Option.some.injEq, Prod.mk.injEq] at h
                    obtain ⟨hout, hr1, _⟩ := h
                    subst hout hr1
                    obtain ⟨hp, hne⟩ := hc123 i v hiv
                    refine ⟨hp, ?_⟩
                    simp only [List.append_assoc, List.mem_append, List.mem_singleton] at hne ⊢
                    rintro (hc | hc | hc | hc)
                    · exact hne (Or.inl hc)
                    · exact hne (Or.inr (Or.inl hc))
                    · exact hne (Or.inr (Or.inr hc))
                    · exact absurd hc (by simp)
          · exact absurd h (by simp)
      | conv e1 c p =>
        simp only [writeProof] at h
        split at h
        · exact absurd h (by simp)
        · next out1 r1x n1 hrec1 =>
          split at h
          · exact absurd h (by simp)
          · next out2 r2x n2 hrec2 =>
            split at h
            · exact absurd h (by simp)
            · next out3 r3x hrec3 =>
              have hc12 := hstep out1 out2 r r1x r2x
                (fun i v hiv => ihP r e1 false out1 r1x n1 hrec1 i v hiv)
                (fun i v hiv => ihP r1x p false out2 r2x n2 hrec2 i v hiv)
              have hc123 := hstep (out1 ++ out2) out3 r r2x r3x hc12
                (fun i v hiv => ihC r2x c out3 r3x hrec3 i v hiv)
              cases save with
              | true =>
                rw [if_pos rfl] at h
                simp only [Option.some.injEq, Prod.mk.injEq] at h
                obtain ⟨hout, hr1, _⟩ := h
                subst hout
                obtain ⟨hp, hne⟩ := hc123 i v hiv
                refine ⟨by rw [← hr1]; exact hp, ?_⟩
                simp only [List.append_assoc, List.mem_append, List.mem_singleton,
                  List.mem_cons] at hne ⊢
                rintro (hc | hc | hc | hc | hc)
                · exact hne (Or.inl hc)
                · exact hne (Or.inr (Or.inl hc))
                · exact absurd hc (by simp)
                · exact hne (Or.inr (Or.inr hc))
                · exact absurd hc (by simp)
              | false =>
                rw [if_neg (by simp)] at h
                simp only [Option.some.injEq, Prod.mk.injEq] at h
                obtain ⟨hout, hr1, _⟩ := h
                subst hout hr1
                obtain ⟨hp, hne⟩ := hc123 i v hiv
                refine ⟨hp, ?_⟩
                simp only [List.append_assoc, List.mem_append, List.mem_singleton,
                  List.mem_cons] at hne ⊢
                rintro (hc | hc | hc | hc)
                · exact hne (Or.inl hc)
                · exact hne (Or.inr (Or.inl hc))
                · exact absurd hc (by simp)
                · exact hne (Or.inr (Or.inr hc))
      | refl e =>
        simp [writeProof] at h
      | sym c =>
        simp [writeProof] at h
      | cong args =>
        simp [writeProof] at h
      | unf l l2 c =>
        simp [writeProof] at h
    have hL : ∀ r es out r1,
        writeProofList thmArgs heap hyps (fuel + 1) r es = some (out, r1) →
        ∀ i v, r.map[i]? = some (some v) →
          r1.map[i]? = some (some v) ∧ Ev.expand i ∉ out := by
      intro r es out r1 h i v hiv
      cases es with
      | nil =>
        simp only [writeProofList, Option.some.injEq, Prod.mk.injEq] at h
        obtain ⟨hout, hr1⟩ := h
        subst hout hr1
        exact ⟨hiv, by simp⟩
      | cons e es =>
        simp only [writeProofList] at h
        split at h
        · exact absurd h (by simp)
        · next out0 r0 n0 hrec =>
          split at h
          · exact absurd h (by simp)
          · next out2 r2 hrec2 =>
            simp only [Option.some.injEq, Prod.mk.injEq] at h
            obtain ⟨hout, hr1⟩ := h
            subst hout hr1
            exact hstep out0 out2 r r0 r2
              (fun i v hiv => ihP r e false out0 r0 n0 hrec i v hiv)
              (fun i v hiv => ihL r0 es out2 r2 hrec2 i v hiv) i v hiv
    have hC : ∀ r node out r1,
        writeConv thmArgs heap hyps (fuel + 1) r node = some (out, r1) →
        ∀ i v, r.map[i]? = some (some v) →
          r1.map[i]? = some (some v) ∧ Ev.expand i ∉ out := by
      intro r node out r1 h i v hiv
      cases node with
      | ref j =>
        simp only [writeConv] at h
        split at h
        · exact absurd h (by simp)
        · next n0 hm =>
          simp only [Option.some.injEq, Prod.mk.injEq] at h
          obtain ⟨hout, hr1⟩ := h
          subst hout hr1
          exact ⟨hiv, by simp⟩
        · next hm =>
          split at h
          · exact absurd h (by simp)
          · next e he =>
            have hij : j ≠ i := by
              intro hji
              rw [hji, hiv] at hm
              simp at hm
            split at h
            · split at h
              · exact absurd h (by simp)
              · next out0 r0 hrec =>
                simp only [Option.some.injEq, Prod.mk.injEq] at h
                obtain ⟨hout, hr1⟩ := h
                subst hout hr1
                obtain ⟨hp, hne⟩ := ihC r e out0 r0 hrec i v hiv
                refine ⟨hp, ?_⟩
                simp only [List.mem_cons]
                rintro (hc | hc)
                · exact hij (by injection hc with hh; exact hh.symm)
                · exact hne hc
            · split at h
              · exact absurd h (by simp)
              · next out0 r0 hrec =>
                simp only [Option.some.injEq, Prod.mk.injEq] at h
                obtain ⟨hout, hr1⟩ := h
                subst hout
                obtain ⟨hp, hne⟩ := ihC r e out0 r0 hrec i v hiv
                constructor
                · rw [← hr1]
                  show (r0.map.set j (some r0.idx))[i]? = some (some v)
                  rw [List.getElem?_set_ne hij]
                  exact hp
                · intro hc
                  rcases List.mem_cons.1 hc with hc1 | hc2
                  · exact hij (by injection hc1 with hh; exact hh.symm)
                  · rcases List.mem_cons.1 hc2 with hc3 | hc4
                    · exact absurd hc3 (by simp)
                    · rcases List.mem_append.1 hc4 with hc5 | hc6
                      · exact hne hc5
                      · exact absurd hc6 (by simp)
      | dummy s =>
        simp [writeConv] at h
      | term tid args =>
        simp [writeConv] at h
      | hyp n2 e =>
        simp [writeConv] at h
      | thm tid args res =>
        simp [writeConv] at h
      | conv e1 c p =>
        simp [writeConv] at h
      | refl e =>
        simp only [writeConv, Option.some.injEq, Prod.mk.injEq] at h
        obtain ⟨hout, hr1⟩ := h
        subst hout hr1
        exact ⟨hiv, by simp⟩
      | sym c =>
        simp only [writeConv] at h
        split at h
        · exact absurd h (by simp)
        · next out0 r0 hrec =>
          simp only [Option.some.injEq, Prod.mk.injEq] at h
          obtain ⟨hout, hr1⟩ := h
          subst hout hr1
          obtain ⟨hp, hne⟩ := ihC r c out0 r0 hrec i v hiv
          refine ⟨hp, ?_⟩
          simp only [List.mem_cons]
          rintro (hc | hc)
          · exact absurd hc (by simp)
          · exact hne hc
      | cong args =>
        simp only [writeConv] at h
        split at h
        · exact absurd h (by simp)
        · next out0 r0 hrec =>
          simp only [Option.some.injEq, Prod.mk.injEq] at h
          obtain ⟨hout, hr1⟩ := h
          subst hout hr1
          obtain ⟨hp, hne⟩ := ihCL r args out0 r0 hrec i v hiv
          refine ⟨hp, ?_⟩
          simp only [List.mem_cons]
          rintro (hc | hc)
          · exact absurd hc (by simp)
          · exact hne hc
      | unf l l2 c =>
        simp only [writeConv] at h
        split at h
        · exact absurd h (by simp)
        · next out1 r1x n1 hrec1 =>
          split at h
          · exact absurd h (by simp)
          · next out2 r2x n2 hrec2 =>
            split at h
            · exact absurd h (by simp)
            · next out3 r3x hrec3 =>
              simp only [Option.some.injEq, Prod.mk.injEq] at h
              obtain ⟨hout, hr1⟩ := h
              subst hout hr1
              have hc12 := hstep out1 out2 r r1x r2x
                (fun i v hiv => ihP r l false out1 r1x n1 hrec1 i v hiv)
                (fun i v hiv => ihP r1x l2 false out2 r2x n2 hrec2 i v hiv)
              have hc123 := hstep (out1 ++ out2) out3 r r2x r3x hc12
                (fun i v hiv => ihC r2x c out3 r3x hrec3 i v hiv)
              obtain ⟨hp, hne⟩ := hc123 i v hiv
              refine ⟨hp, ?_⟩
              simp only [List.append_assoc, List.mem_append, List.mem_singleton,
                List.mem_cons] at hne ⊢
              rintro (hc | hc | hc | hc)
              · exact hne (Or.inl hc)
              · exact hne (Or.inr (Or.inl hc))
              · exact absurd hc (by simp)
              · exact hne (Or.inr (Or.inr hc))
    have hCL : ∀ r es out r1,
        writeConvList thmArgs heap hyps (fuel + 1) r es = some (out, r1) →
        ∀ i v, r.map[i]? = some (some v) →
          r1.map[i]? = some (some v) ∧ Ev.expand i ∉ out := by
      intro r es out r1 h i v hiv
      cases es with
      | nil =>
        simp only [writeConvList, Option.some.injEq, Prod.mk.injEq] at h
        obtain ⟨hout, hr1⟩ := h
        subst hout hr1
        exact ⟨hiv, by simp⟩
      | cons e es =>
        simp only [writeConvList] at h
        split at h
        · exact absurd h (by simp)
        · next out0 r0 hrec =>
          split at h
          · exact absurd h (by simp)
          · next out2 r2 hrec2 =>
            simp only [Option.some.injEq, Prod.mk.injEq] at h
            obtain ⟨hout, hr1⟩ := h
            subst hout hr1
            exact hstep out0 out2 r r0 r2
              (fun i v hiv => ihC r e out0 r0 hrec i v hiv)
              (fun i v hiv => ihCL r0 es out2 r2 hrec2 i v hiv) i v hiv
    exact ⟨hP, hL, hC, hCL⟩

/-- Claim C1: within a declaration's serialization, once a heap slot has
been assigned an output index n in the reorder map, the assignment never
changes, the slot's node is never expanded again (no expand event for it
occurs in any serializer run started from such a state), and a reference
node for the slot emits exactly the matching reference opcode pointing at
that same n: ProofCmd::Ref(n) in expression and proof streams,
ProofCmd::ConvRef(n) in conversion streams, UnifyCmd::Ref(n) in unify
streams. -/
theorem heap_slot_ref_discipline :
    (∀ (heap : List ExprNode) (fuel : Nat) (r : Reorder) (node : ExprNode)
       (save : Bool) (out : List (Ev PCmd)) (r1 : Reorder) (n i v : Nat),
       writeExprProof heap fuel r node save = some (out, r1, n) →
       r.map[i]? = some (some v) →
       (r1.map[i]? = some (some v) ∧ Ev.expand i ∉ out ∧
        (node = ExprNode.ref i →
          out = [Ev.cmd (PCmd.ref v)] ∧ r1 = r ∧ n = v))) ∧
    (∀ (thmArgs : Nat → Option Nat) (heap : List ProofNode) (hyps : List Nat)
       (fuel : Nat) (r : Reorder) (node : ProofNode) (save : Bool)
       (out : List (Ev PCmd)) (r1 : Reorder) (n i v : Nat),
       writeProof thmArgs heap hyps fuel r node save = some (out, r1, n) →
       r.map[i]? = some (some v) →
       (r1.map[i]? = some (some v) ∧ Ev.expand i ∉ out ∧
        (node = ProofNode.ref i →
          out = [Ev.cmd (PCmd.ref v)] ∧ r1 = r ∧ n = v))) ∧
    (∀ (thmArgs : Nat → Option Nat) (heap : List ProofNode) (hyps : List Nat)
       (fuel : Nat) (r : Reorder) (node : ProofNode)
       (out : List (Ev PCmd)) (r1 : Reorder) (i v : Nat),
       writeConv thmArgs heap hyps fuel r node = some (out, r1) →
       r.map[i]? = some (some v) →
       (r1.map[i]? = some (some v) ∧ Ev.expand i ∉ out ∧
        (node = ProofNode.ref i →
          out = [Ev.cmd (PCmd.convRef v)] ∧ r1 = r))) ∧
    (∀ (heap : List ExprNode) (fuel : Nat) (r : Reorder) (sv : List Nat)
       (node : ExprNode) (out : List (Ev UCmd)) (r1 : Reorder)
       (sv1 : List Nat) (i v : Nat),
       writeExprUnify heap fuel r sv node = some (out, r1, sv1) →
       (∀ j, j ∈ sv → r.map[j]? = some none) →
       r.map[i]? = some (some v) →
       (r1.map[i]? = some (some v) ∧ Ev.expand i ∉ out ∧
        (node = ExprNode.ref i →
          out = [Ev.cmd (UCmd.ref v)] ∧
          r1 = ⟨commitSave r.map sv v, r.idx⟩ ∧ sv1 = []))) := by
  refine ⟨?_, ?_, ?_, ?_⟩
  · intro heap fuel r node save out r1 n i v h hiv
    obtain ⟨hp, hne⟩ := (writeExprProof_preserve heap fuel).1 r node save out r1 n h i v hiv
    refine ⟨hp, hne, ?_⟩
    intro hnode
    subst hnode
    cases fuel with
    | zero => simp [writeExprProof] at h
    | succ fuel =>
      simp only [writeExprProof, hiv] at h
      simp only [Option.some.injEq, Prod.mk.injEq] at h
      obtain ⟨hout, hr1, hn⟩ := h
      exact ⟨hout.symm, hr1.symm, hn.symm⟩
  · intro thmArgs heap hyps fuel r node save out r1 n i v h hiv
    obtain ⟨hp, hne⟩ :=
      (writeProof_preserve thmArgs heap hyps fuel).1 r node save out r1 n h i v hiv
    refine ⟨hp, hne, ?_⟩
    intro hnode
    subst hnode
    cases fuel with
    | zero => simp [writeProof] at h
    | succ fuel =>
      simp only [writeProof, hiv] at h
      simp only [Option.some.injEq, Prod.mk.injEq] at h
      obtain ⟨hout, hr1, hn⟩ := h
      exact ⟨hout.symm, hr1.symm, hn.symm⟩
  · intro thmArgs heap hyps fuel r node out r1 i v h hiv
    obtain ⟨hp, hne⟩ :=
      (writeProof_preserve thmArgs heap hyps fuel).2.2.1 r node out r1 h i v hiv
    refine ⟨hp, hne, ?_⟩
    intro hnode
    subst hnode
    cases fuel with
    | zero => simp [writeConv] at h
    | succ fuel =>
      simp only [writeConv, hiv] at h
      simp only [Option.some.injEq, Prod.mk.injEq] at h
      obtain ⟨hout, hr1⟩ := h
      exact ⟨hout.symm, hr1.symm⟩
  · intro heap fuel r sv node out r1 sv1 i v h hinv hiv
    obtain ⟨hmono, _⟩ := (writeExprUnify_preserve heap fuel).1 r sv node out r1 sv1 h hinv
    obtain ⟨hp, hne⟩ := hmono i v hiv
    refine ⟨hp, hne, ?_⟩
    intro hnode
    subst hnode
    cases fuel with
    | zero => simp [writeExprUnify] at h
    | succ fuel =>
      simp only [writeExprUnify, hiv] at h
      simp only [Option.some.injEq, Prod.mk.injEq] at h
      obtain ⟨hout, hr1, hsv1⟩ := h
      exact ⟨hout.symm, hr1.symm, hsv1.symm⟩

/-- Witness for heap_slot_ref_discipline: concrete assigned-slot runs of
the four serializers. -/
theorem heap_slot_ref_discipline_witness :
    (writeExprProof [ExprNode.dummy 0] 3 ⟨[some 5], 7⟩ (ExprNode.ref 0) false =
        some ([Ev.cmd (PCmd.ref 5)], ⟨[some 5], 7⟩, 5) ∧
      (⟨[some 5], 7⟩ : Reorder).map[0]? = some (some 5) ∧
      ((⟨[some 5], 7⟩ : Reorder).map[0]? = some (some 5) ∧
        Ev.expand 0 ∉ [Ev.cmd (PCmd.ref 5)] ∧
        (ExprNode.ref 0 = ExprNode.ref 0 →
          [Ev.cmd (PCmd.ref 5)] = [Ev.cmd (PCmd.ref 5)] ∧
          (⟨[some 5], 7⟩ : Reorder) = ⟨[some 5], 7⟩ ∧ (5 : Nat) = 5))) ∧
    (writeProof (fun _ => none) [ProofNode.dummy 0] [] 3 ⟨[some 4], 6⟩
        (ProofNode.ref 0) false = some ([Ev.cmd (PCmd.ref 4)], ⟨[some 4], 6⟩, 4) ∧
      ((⟨[some 4], 6⟩ : Reorder).map[0]? = some (some 4) ∧
        Ev.expand 0 ∉ [Ev.cmd (PCmd.ref 4)])) ∧
    (writeConv (fun _ => none) [ProofNode.dummy 0] [] 3 ⟨[some 2], 9⟩
        (ProofNode.ref 0) = some ([Ev.cmd (PCmd.convRef 2)], ⟨[some 2], 9⟩) ∧
      ((⟨[some 2], 9⟩ : Reorder).map[0]? = some (some 2) ∧
        Ev.expand 0 ∉ [Ev.cmd (PCmd.convRef 2)])) ∧
    (writeExprUnify [ExprNode.dummy 0] 3 ⟨[some 3, none], 2⟩ [1] (ExprNode.ref 0) =
        some ([Ev.cmd (UCmd.ref 3)], ⟨commitSave [some 3, none] [1] 3, 2⟩, []) ∧
      ((⟨commitSave [some 3, none] [1] 3, 2⟩ : Reorder).map[0]? = some (some 3) ∧
        Ev.expand 0 ∉ [Ev.cmd (UCmd.ref 3)] ∧
        (ExprNode.ref 0 = ExprNode.ref 0 →
          [Ev.cmd (UCmd.ref 3)] = [Ev.cmd (UCmd.ref 3)] ∧
          (⟨commitSave [some 3, none] [1] 3, 2⟩ : Reorder) =
            ⟨commitSave [some 3, none] [1] 3, 2⟩ ∧ ([] : List Nat) = []))) := by
  refine ⟨⟨rfl, rfl, ?_⟩, ⟨rfl, ?_⟩, ⟨rfl, ?_⟩, ⟨rfl, ?_⟩⟩
  · exact heap_slot_ref_discipline.1 [ExprNode.dummy 0] 3 ⟨[some 5], 7⟩
      (ExprNode.ref 0) false [Ev.cmd (PCmd.ref 5)] ⟨[some 5], 7⟩ 5 0 5 rfl rfl
  · exact ⟨(heap_slot_ref_discipline.2.1 (fun _ => none) [ProofNode.dummy 0] [] 3
      ⟨[some 4], 6⟩ (ProofNode.ref 0) false [Ev.cmd (PCmd.ref 4)] ⟨[some 4], 6⟩
      4 0 4 rfl rfl).1,
     (heap_slot_ref_discipline.2.1 (fun _ => none) [ProofNode.dummy 0] [] 3
      ⟨[some 4], 6⟩ (ProofNode.ref 0) false [Ev.cmd (PCmd.ref 4)] ⟨[some 4], 6⟩
      4 0 4 rfl rfl).2.1⟩
  · exact ⟨(heap_slot_ref_discipline.2.2.1 (fun _ => none) [ProofNode.dummy 0] [] 3
      ⟨[some 2], 9⟩ (ProofNode.ref 0) [Ev.cmd (PCmd.convRef 2)] ⟨[some 2], 9⟩
      0 2 rfl rfl).1,
     (heap_slot_ref_discipline.2.2.1 (fun _ => none) [ProofNode.dummy 0] [] 3
      ⟨[some 2], 9⟩ (ProofNode.ref 0) [Ev.cmd (PCmd.convRef 2)] ⟨[some 2], 9⟩
      0 2 rfl rfl).2.1⟩
  · exact heap_slot_ref_discipline.2.2.2 [ExprNode.dummy 0] 3 ⟨[some 3, none], 2⟩
      [1] (ExprNode.ref 0) [Ev.cmd (UCmd.ref 3)] ⟨commitSave [some 3, none] [1] 3, 2⟩
      [] 0 3 rfl
      (by
        intro j hj
        have hj1 : j = 1 := by simpa using hj
        subst hj1
        rfl)
      rfl

/-- Witness for align_to_spec at n = 8, pos = 41. -/
theorem align_to_spec_witness :
    ((2 : Nat) = 2 ∨ (2 : Nat) = 4 ∨ (2 : Nat) = 8) ∧
    ((alignTo 2 41).1 = List.replicate (alignPad 2 41) 0 ∧
    (alignTo 2 41).2 = 41 + alignPad 2 41 ∧
    (alignTo 2 41).2 % 2 = 0 ∧
    alignPad 2 41 < 2 ∧
    (41 % 2 = 0 → alignPad 2 41 = 0) ∧
    (∀ k, (41 + k) % 2 = 0 → alignPad 2 41 ≤ k)) :=
  ⟨Or.inl rfl, align_to_spec 2 41 (Or.inl rfl)⟩

/-- Claim C3: exporting the empty environment without index yields
exactly 45 bytes: the 40-byte header with p_terms, p_thms and p_proof
all patched to 40 and p_index left 0, no sort-modifier bytes, empty term
and theorem tables, a proof stream of one 0 byte, and 4 bytes of
padding. -/
theorem empty_env_export :
    mmbExport emptyEnv 9 false =
      some ((MM0B_MAGIC ++ [MM0B_VERSION, 0, 0, 0] ++ u32le 0 ++ u32le 0 ++
        u32le 40 ++ u32le 40 ++ u64le 40 ++ u64le 0) ++ [0] ++ u32le 0) ∧
    (mmbExport emptyEnv 9 false).map List.length = some 45 ∧
    (MM0B_MAGIC ++ [MM0B_VERSION, 0, 0, 0] ++ u32le 0 ++ u32le 0 ++
      u32le 40 ++ u32le 40 ++ u64le 40 ++ u64le 0).length = 40 :=
  ⟨rfl, rfl, rfl⟩

/-- Counterexample to claim C2: in the environment with one sort, one
pure term and one axiom, p_proof is committed as 74, which is not a
multiple of 8: the exporter commits p_proof directly after the last
theorem body without aligning. -/
theorem p_proof_unaligned :
    (run oneThmEnv 9 false).map ExpRes.pProof = some 74 ∧ (74 : Nat) % 8 ≠ 0 :=
  ⟨rfl, by decide⟩

theorem alignSt_pos (n : Nat) (st : ExpSt) :
    (alignSt n st).pos = st.pos + alignPad n st.pos := by
  simp [alignSt, wrB]

theorem alignSt_eight (st : ExpSt) : (alignSt 8 st).pos % 8 = 0 := by
  rw [alignSt_pos, alignPad_eight]
  omega

theorem termStep_off (fuel : Nat) (st : ExpSt) (t : TermData) (st2 : ExpSt)
    (slot : List Nat) (off : Nat) (h : termStep fuel st t = some (st2, slot, off)) :
    off = (alignSt 8 st).pos := by
  simp only [termStep] at h
  split at h
  · split at h
    · split at h
      · exact absurd h (by simp)
      · simp only [Option.some.injEq, Prod.mk.injEq] at h
        exact h.2.2.symm
    · exact absurd h (by simp)
  · exact absurd h (by simp)

theorem termLoop_offs (fuel : Nat) (ts : List TermData) :
    ∀ st st2 slots offs, termLoop fuel st ts = some (st2, slots, offs) →
      ∀ o ∈ offs, o % 8 = 0 := by
  induction ts with
  | nil =>
    intro st st2 slots offs h o ho
    simp only [termLoop, Option.some.injEq, Prod.mk.injEq] at h
    rw [← h.2.2] at ho
    exact absurd ho (by simp)
  | cons t rest ih =>
    intro st st2 slots offs h o ho
    simp only [termLoop] at h
    split at h
    · exact absurd h (by simp)
    · next st1 slot off hstep =>
      split at h
      · exact absurd h (by simp)
      · next st3 slots2 offs2 hloop =>
        simp only [Option.some.injEq, Prod.mk.injEq] at h
        rw [← h.2.2] at ho
        rcases List.mem_cons.1 ho with ho | ho
        · rw [ho, termStep_off fuel st t st1 slot off hstep]
          exact alignSt_eight st
        · exact ih st1 st3 slots2 offs2 hloop o ho

theorem thmStep_off (fuel : Nat) (st : ExpSt) (t : ThmData) (st2 : ExpSt)
    (slot : List Nat) (off : Nat) (h : thmStep fuel st t = some (st2, slot, off)) :
    off = (alignSt 8 st).pos := by
  simp only [thmStep] at h
  split at h
  · split at h
    · split at h
      · exact absurd h (by simp)
      · simp only [Option.some.injEq, Prod.mk.injEq] at h
        exact h.2.2.symm
    · exact absurd h (by simp)
  · exact absurd h (by simp)

theorem thmLoop_offs (fuel : Nat) (ts : List ThmData) :
    ∀ st st2 slots offs, thmLoop fuel st ts = some (st2, slots, offs) →
      ∀ o ∈ offs, o % 8 = 0 := by
  induction ts with
  | nil =>
    intro st st2 slots offs h o ho
    simp only [thmLoop, Option.some.injEq, Prod.mk.injEq] at h
    rw [← h.2.2] at ho
    exact absurd ho (by simp)
  | cons t rest ih =>
    intro st st2 slots offs h o ho
    simp only [thmLoop] at h
    split at h
    · exact absurd h (by simp)
    · next st1 slot off hstep =>
      split at h
      · exact absurd h (by simp)
      · next st3 slots2 offs2 hloop =>
        simp only [Option.some.injEq, Prod.mk.injEq] at h
        rw [← h.2.2] at ho
        rcases List.mem_cons.1 ho with ho | ho
        · rw [ho, thmStep_off fuel st t st1 slot off hstep]
          exact alignSt_eight st
        · exact ih st1 st3 slots2 offs2 hloop o ho

theorem runTerms_facts (env : Env) (fuel fp : Nat) (st st2 : ExpSt) (pT : Nat)
    (offs : List Nat) (h : runTerms env fuel fp st = some (st2, pT, offs)) :
    pT % 8 = 0 ∧ ∀ o ∈ offs, o % 8 = 0 := by
  simp only [runTerms] at h
  split at h
  · split at h
    · exact absurd h (by simp)
    · next st4 slots offs2 hloop =>
      simp only [Option.some.injEq, Prod.mk.injEq] at h
      constructor
      · rw [← h.2.1]
        exact alignSt_eight st
      · rw [← h.2.2]
        exact termLoop_offs fuel env.terms _ st4 slots offs2 hloop
  · exact absurd h (by simp)

theorem runThms_facts (env : Env) (fuel fp : Nat) (st st2 : ExpSt) (pH : Nat)
    (offs : List Nat) (h : runThms env fuel fp st = some (st2, pH, offs)) :
    pH % 8 = 0 ∧ ∀ o ∈ offs, o % 8 = 0 := by
  simp only [runThms] at h
  split at h
  · split at h
    · exact absurd h (by simp)
    · next st4 slots offs2 hloop =>
      simp only [Option.some.injEq, Prod.mk.injEq] at h
      constructor
      · rw [← h.2.1]
        exact alignSt_eight st
      · rw [← h.2.2]
        exact thmLoop_offs fuel env.thms _ st4 slots offs2 hloop
  · exact absurd h (by simp)

theorem runIndex_aligned (env : Env) (st : ExpSt) (fp : Nat) (entries : List IdxEntry)
    (st2 : ExpSt) (pI : Nat) (h : runIndex env st fp entries = some (st2, pI)) :
    pI % 8 = 0 := by
  simp only [runIndex] at h
  split at h
  · split at h
    · exact absurd h (by simp)
    · next st4 anch root hidx =>
      simp only [Option.some.injEq, Prod.mk.injEq] at h
      rw [← h.2]
      exact alignSt_eight st
  · exact absurd h (by simp)

/-- Claim C2 amended: whenever run succeeds, p_terms, p_thms, p_index
(when the index is emitted) and every term and theorem body offset are
committed as multiples of 8; p_proof, by contrast, is committed at the
unaligned position directly after the last theorem body
(see p_proof_unaligned). -/
theorem forward_pointers_aligned (env : Env) (fuel : Nat) (index : Bool)
    (res : ExpRes) (h : run env fuel index = some res) :
    res.pTerms % 8 = 0 ∧ res.pThms % 8 = 0 ∧
    (∀ pI, res.pIndex = some pI → pI % 8 = 0) ∧
    (∀ o ∈ res.termOffs, o % 8 = 0) ∧ (∀ o ∈ res.thmOffs, o % 8 = 0) := by
  simp only [run] at h
  split at h
  · exact absurd h (by simp)
  · next st1 fpT fpH fpP fpI hhdr =>
    split at h
    · exact absurd h (by simp)
    · next st2 pT tOffs hterms =>
      split at h
      · exact absurd h (by simp)
      · next st3 pH hOffs hthms =>
        split at h
        · exact absurd h (by simp)
        · next st4 pP entries hbody =>
          obtain ⟨hpt, htoffs⟩ := runTerms_facts env fuel fpT st1 st2 pT tOffs hterms
          obtain ⟨hph, hhoffs⟩ := runThms_facts env fuel fpH st2 st3 pH hOffs hthms
          split at h
          · split at h
            · exact absurd h (by simp)
            · next st5 pI hidx =>
              simp only [Option.some.injEq] at h
              rw [← h]
              refine ⟨hpt, hph, ?_, htoffs, hhoffs⟩
              intro pI2 hpi
              simp only [Option.some.injEq] at hpi
              rw [← hpi]
              exact runIndex_aligned env st4 fpI entries st5 pI hidx
          · simp only [Option.some.injEq] at h
            rw [← h]
            refine ⟨hpt, hph, ?_, htoffs, hhoffs⟩
            intro pI2 hpi
            exact absurd hpi (by simp)

/-- Witness for forward_pointers_aligned at the one-theorem environment. -/
theorem forward_pointers_aligned_witness :
    run oneThmEnv 9 false = some (runD oneThmEnv 9 false) ∧
    ((runD oneThmEnv 9 false).pTerms % 8 = 0 ∧
     (runD oneThmEnv 9 false).pThms % 8 = 0 ∧
     (∀ pI, (runD oneThmEnv 9 false).pIndex = some pI → pI % 8 = 0) ∧
     (∀ o ∈ (runD oneThmEnv 9 false).termOffs, o % 8 = 0) ∧
     (∀ o ∈ (runD oneThmEnv 9 false).thmOffs, o % 8 = 0)) :=
  ⟨rfl, forward_pointers_aligned oneThmEnv 9 false (runD oneThmEnv 9 false) rfl⟩

/-- Counterexample to claim C4: the body of the pure term with no
arguments and no definition is the 8-byte return-type word alone, with
no trailing NUL, so it is not the return-type word followed by a
terminating 0 byte. -/
theorem pure_term_body_no_nul :
    termBodyBytes pureTermData 9 = some (u64le (sortDepsWord false 0 0)) ∧
    termBodyBytes pureTermData 9 ≠
      some (u64le (sortDepsWord false 0 0) ++ [0]) :=
  ⟨rfl, by decide⟩

/-- Claim C4 amended: every term body is written at the 8-byte aligned
offset stored in its table slot and consists of the binder words and the
return-type word, followed for definitions only by the unifier command
bytes and a terminating 0 byte; a pure term body ends after the
return-type word with no NUL. -/
theorem term_body_layout (t : TermData) (fuel : Nat) (body : List Nat)
    (h : termBodyBytes t fuel = some body) :
    (writeBinders t.args).2 = false ∧
    (t.kind = TermKind.term →
      body = catBytes ((writeBinders t.args).1.map u64le) ++
        u64le (sortDepsWord false t.ret.1 t.ret.2)) ∧
    (∀ val, t.kind = TermKind.defn (some val) →
      ∃ r0 evs r1 sv1, Reorder.new t.args.length val.heap.length = some r0 ∧
        writeExprUnify val.heap fuel r0 [] val.head = some (evs, r1, sv1) ∧
        body = catBytes ((writeBinders t.args).1.map u64le) ++
          u64le (sortDepsWord false t.ret.1 t.ret.2) ++ uEvBytes evs ++ [0]) ∧
    (∀ st st2 slot off, termStep fuel st t = some (st2, slot, off) →
      off = (alignSt 8 st).pos ∧ off % 8 = 0 ∧
      slot = u16le t.args.length ++
        [t.ret.1 ||| (if (match t.kind with
          | TermKind.term => false
          | TermKind.defn _ => true) then 128 else 0), 0] ++ u32le off ∧
      st2 = wrB (alignSt 8 st) body) := by
  have h4 : ∀ st st2 slot off, termStep fuel st t = some (st2, slot, off) →
      off = (alignSt 8 st).pos ∧ off % 8 = 0 ∧
      slot = u16le t.args.length ++
        [t.ret.1 ||| (if (match t.kind with
          | TermKind.term => false
          | TermKind.defn _ => true) then 128 else 0), 0] ++ u32le off ∧
      st2 = wrB (alignSt 8 st) body := by
    intro st st2 slot off hs
    simp only [termStep] at hs
    split at hs
    · split at hs
      · split at hs
        · exact absurd hs (by simp)
        · next body2 hsome =>
          rw [h] at hsome
          simp only [Option.some.injEq] at hsome
          subst hsome
          simp only [Option.some.injEq, Prod.mk.injEq] at hs
          obtain ⟨hst2, hslot, hoff⟩ := hs
          subst hoff
          exact ⟨rfl, alignSt_eight st, hslot.symm, hst2.symm⟩
      · exact absurd hs (by simp)
    · exact absurd hs (by simp)
  simp only [termBodyBytes] at h
  split at h
  · exact absurd h (by simp)
  · next hwb =>
    have hwb2 : (writeBinders t.args).2 = false := by simpa using hwb
    split at h
    · next hkind =>
      simp only [Option.some.injEq] at h
      refine ⟨hwb2, fun _ => h.symm, ?_, h4⟩
      intro val hk
      rw [hkind] at hk
      simp at hk
    · exact absurd h (by simp)
    · next val0 hkind =>
      split at h
      · exact absurd h (by simp)
      · next r0 hr0 =>
        split at h
        · exact absurd h (by simp)
        · next evs r1 sv1 hu =>
          simp only [Option.some.injEq] at h
          refine ⟨hwb2, ?_, ?_, h4⟩
          · intro hk
            rw [hkind] at hk
            simp at hk
          · intro val hk
            rw [hkind] at hk
            simp only [TermKind.defn.injEq, Option.some.injEq] at hk
            subst hk
            refine ⟨r0, evs, r1, sv1, hr0, hu, ?_⟩
            rw [← h]

/-- Witness for term_body_layout at a definition with one argument. -/
theorem term_body_layout_witness :
    termBodyBytes exDefTerm 9 = some (termBodyD exDefTerm 9) ∧
    (writeBinders exDefTerm.args).2 = false :=
  ⟨rfl, (term_body_layout exDefTerm 9 (termBodyD exDefTerm 9) rfl).1⟩

theorem unifyHypsLoop_chunks (heap : List ExprNode) (fuel : Nat) (hs : List ExprNode) :
    ∀ r sv o r2 sv2, unifyHypsLoop heap fuel r sv hs = some (o, r2, sv2) →
      ∃ chunks, HypChunks heap fuel r sv hs chunks r2 sv2 ∧
        o = catEvs (chunks.map (fun c => Ev.cmd UCmd.hyp :: c)) := by
  induction hs with
  | nil =>
    intro r sv o r2 sv2 h
    simp only [unifyHypsLoop, Option.some.injEq, Prod.mk.injEq] at h
    obtain ⟨ho, hr, hsv⟩ := h
    subst ho hr hsv
    exact ⟨[], HypChunks.nil r sv, rfl⟩
  | cons e rest ih =>
    intro r sv o r2 sv2 h
    simp only [unifyHypsLoop] at h
    split at h
    · exact absurd h (by simp)
    · next o1 r1 sv1 hu =>
      split at h
      · exact absurd h (by simp)
      · next o2 r3 sv3 hloop =>
        simp only [Option.some.injEq, Prod.mk.injEq] at h
        obtain ⟨ho, hr, hsv⟩ := h
        subst ho hr hsv
        obtain ⟨chunks, hch, ho2⟩ := ih r1 sv1 o2 r3 sv3 hloop
        refine ⟨o1 :: chunks, HypChunks.cons r sv e o1 r1 sv1 rest chunks r3 sv3 hu hch, ?_⟩
        rw [ho2]
        rfl

/-- Claim C10: the unify stream of every theorem or axiom table entry
serializes the return expression first, then each hypothesis in reverse
declaration order, preceded by UnifyCmd::Hyp and threaded through the
same reorder map and save accumulator, and the body ends with the
terminating 0 byte after the binder words. -/
theorem thm_unify_stream_order (t : ThmData) (fuel : Nat) (body : List Nat)
    (h : thmBodyBytes t fuel = some body) :
    ∃ r0 o1 r1 sv1 chunks r2 sv2,
      Reorder.new t.args.length t.heap.length = some r0 ∧
      writeExprUnify t.heap fuel r0 [] t.ret = some (o1, r1, sv1) ∧
      HypChunks t.heap fuel r1 sv1 t.hyps.reverse chunks r2 sv2 ∧
      body = catBytes ((writeBinders t.args).1.map u64le) ++
        uEvBytes (o1 ++ catEvs (chunks.map (fun c => Ev.cmd UCmd.hyp :: c))) ++ [0] := by
  simp only [thmBodyBytes] at h
  split at h
  · exact absurd h (by simp)
  · next hwb =>
    split at h
    · exact absurd h (by simp)
    · next r0 hr0 =>
      split at h
      · exact absurd h (by simp)
      · next evs r9 sv9 hts =>
        simp only [Option.some.injEq] at h
        simp only [thmUnifyStream] at hts
        split at hts
        · exact absurd hts (by simp)
        · next o1 r1 sv1 hret =>
          split at hts
          · exact absurd hts (by simp)
          · next o2 r3 sv3 hloop =>
            simp only [Option.some.injEq, Prod.mk.injEq] at hts
            obtain ⟨hevs, hr9, hsv9⟩ := hts
            obtain ⟨chunks, hch, ho2⟩ := unifyHypsLoop_chunks t.heap fuel t.hyps.reverse
              r1 sv1 o2 r3 sv3 hloop
            refine ⟨r0, o1, r1, sv1, chunks, r3, sv3, hr0, hret, hch, ?_⟩
            rw [← h, ← hevs, ho2]

/-- Witness for thm_unify_stream_order at a two-hypothesis theorem. -/
theorem thm_unify_stream_order_witness :
    thmBodyBytes exThm 9 = some (thmBodyD exThm 9) ∧
    ∃ r0 o1 r1 sv1 chunks r2 sv2,
      Reorder.new exThm.args.length exThm.heap.length = some r0 ∧
      writeExprUnify exThm.heap 9 r0 [] exThm.ret = some (o1, r1, sv1) ∧
      HypChunks exThm.heap 9 r1 sv1 exThm.hyps.reverse chunks r2 sv2 ∧
      thmBodyD exThm 9 = catBytes ((writeBinders exThm.args).1.map u64le) ++
        uEvBytes (o1 ++ catEvs (chunks.map (fun c => Ev.cmd UCmd.hyp :: c))) ++ [0] :=
  ⟨rfl, thm_unify_stream_order exThm 9 (thmBodyD exThm 9) rfl⟩

theorem u64le_length (n : Nat) : (u64le n).length = 8 := rfl

theorem u32le_length (n : Nat) : (u32le n).length = 4 := rfl

theorem indexEntryBytes_length (il ir line chr cmd ix k : Nat) (name : List Nat) :
    (indexEntryBytes il ir line chr cmd ix k name).length = 37 + name.length + 1 := by
  simp only [indexEntryBytes, List.length_append, u64le_length, u32le_length,
    List.length_singleton, List.length_cons, List.length_nil]

/-- Counterexample to claim C5: the index entry record written for a
one-byte name occupies 39 = 37 + 1 + 1 bytes, not 40 + 1 + 1 = 42. -/
theorem index_entry_size_counterexample :
    (writeIndexEntryB idxEnv ⟨[], 0, []⟩ ⟨[0], [], []⟩ 0 0 (true, 0, 41)).map
      (fun x => x.1.out.length) = some 39 ∧ (39 : Nat) ≠ 40 + 1 + 1 :=
  ⟨rfl, by decide⟩

/-- Claim C5 amended: each index entry record starts at its 8-byte
aligned position and occupies exactly 37 + name length + 1 bytes, laid
out as u64 left child, u64 right child, u32 line, u32 character, u64
statement offset, u32 id, the kind byte, then the name followed by a
NUL. -/
theorem index_entry_layout (env : Env) (st : ExpSt) (anch : IdxAnchors)
    (il ir : Nat) (e : IdxEntry) (st2 : ExpSt) (anch2 : IdxAnchors) (n : Nat)
    (h : writeIndexEntryB env st anch il ir e = some (st2, anch2, n)) :
    n = (alignSt 8 st).pos ∧ n % 8 = 0 ∧
    ∃ info tgt, idxResolve env e = some (info, tgt) ∧
      st2.out = (alignSt 8 st).out ++
        indexEntryBytes il ir info.line info.chr e.2.2 info.ix info.k info.name ∧
      (indexEntryBytes il ir info.line info.chr e.2.2 info.ix info.k info.name).length
        = 37 + info.name.length + 1 ∧
      indexEntryBytes il ir info.line info.chr e.2.2 info.ix info.k info.name =
        u64le il ++ u64le ir ++ u32le info.line ++ u32le info.chr ++ u64le e.2.2 ++
          u32le info.ix ++ [info.k] ++ info.name ++ [0] := by
  simp only [writeIndexEntryB] at h
  split at h
  · exact absurd h (by simp)
  · next info tgt hres =>
    split at h
    · exact absurd h (by simp)
    · next anch3 hanch =>
      split at h
      · exact absurd h (by simp)
      · next hnul =>
        simp only [Option.some.injEq, Prod.mk.injEq] at h
        obtain ⟨hst2, hanch2, hn⟩ := h
        subst hn
        refine ⟨rfl, alignSt_eight st, info, tgt, hres, ?_,
          indexEntryBytes_length il ir info.line info.chr e.2.2 info.ix info.k info.name,
          rfl⟩
        rw [← hst2]
        simp [wrB]

/-- Witness for index_entry_layout at a concrete sort entry. -/
theorem index_entry_layout_witness :
    writeIndexEntryB idxEnv ⟨[], 0, []⟩ ⟨[0], [], []⟩ 0 0 (true, 0, 41) =
      some (exIdxEntryRes.1, exIdxEntryRes.2.1, exIdxEntryRes.2.2) ∧
    (exIdxEntryRes.2.2 = (alignSt 8 ⟨[], 0, []⟩).pos ∧ exIdxEntryRes.2.2 % 8 = 0) :=
  ⟨rfl,
    ⟨(index_entry_layout idxEnv ⟨[], 0, []⟩ ⟨[0], [], []⟩ 0 0 (true, 0, 41)
        exIdxEntryRes.1 exIdxEntryRes.2.1 exIdxEntryRes.2.2 rfl).1,
     (index_entry_layout idxEnv ⟨[], 0, []⟩ ⟨[0], [], []⟩ 0 0 (true, 0, 41)
        exIdxEntryRes.1 exIdxEntryRes.2.1 exIdxEntryRes.2.2 rfl).2.1⟩⟩

theorem byteLe_total (a : List Nat) : ∀ b, byteLe a b = true ∨ byteLe b a = true := by
  induction a with
  | nil => intro b; left; rfl
  | cons x xs ih =>
    intro b
    cases b with
    | nil => right; rfl
    | cons y ys =>
      rcases Nat.lt_trichotomy x y with h | h | h
      · left
        simp [byteLe, if_pos h]
      · subst h
        rcases ih ys with h2 | h2
        · left
          simp [byteLe, Nat.lt_irrefl, h2]
        · right
          simp [byteLe, Nat.lt_irrefl, h2]
      · right
        simp [byteLe, if_pos h]

theorem byteLe_trans (a : List Nat) : ∀ b c, byteLe a b = true → byteLe b c = true →
    byteLe a c = true := by
  induction a with
  | nil => intro b c _ _; rfl
  | cons x xs ih =>
    intro b c hab hbc
    cases b with
    | nil => simp [byteLe] at hab
    | cons y ys =>
      cases c with
      | nil => simp [byteLe] at hbc
      | cons z zs =>
        rcases Nat.lt_trichotomy x y with h1 | h1 | h1
        · rcases Nat.lt_trichotomy y z with h2 | h2 | h2
          · simp [byteLe, if_pos (by omega : x < z)]
          · subst h2
            simp [byteLe, if_pos h1]
          · rw [byteLe, if_neg (by omega : ¬ y < z), if_pos h2] at hbc
            exact absurd hbc (by simp)
        · subst h1
          rw [byteLe, if_neg (Nat.lt_irrefl x), if_neg (Nat.lt_irrefl x)] at hab
          rcases Nat.lt_trichotomy x z with h2 | h2 | h2
          · simp [byteLe, if_pos h2]
          · subst h2
            rw [byteLe, if_neg (Nat.lt_irrefl x), if_neg (Nat.lt_irrefl x)] at hbc
            rw [byteLe, if_neg (Nat.lt_irrefl x), if_neg (Nat.lt_irrefl x)]
            exact ih ys zs hab hbc
          · rw [byteLe, if_neg (by omega : ¬ x < z), if_pos h2] at hbc
            exact absurd hbc (by simp)
        · rw [byteLe, if_neg (by omega : ¬ x < y), if_pos h1] at hab
          exact absurd hab (by simp)

theorem byteLe_antisymm (a : List Nat) : ∀ b, byteLe a b = true → byteLe b a = true →
    a = b := by
  induction a with
  | nil =>
    intro b hab hba
    cases b with
    | nil => rfl
    | cons y ys => simp [byteLe] at hba
  | cons x xs ih =>
    intro b hab hba
    cases b with
    | nil => simp [byteLe] at hab
    | cons y ys =>
      rcases Nat.lt_trichotomy x y with h | h | h
      · rw [byteLe, if_neg (by omega : ¬ y < x), if_pos h] at hba
        exact absurd hba (by simp)
      · subst h
        rw [byteLe, if_neg (Nat.lt_irrefl x), if_neg (Nat.lt_irrefl x)] at hab hba
        rw [ih ys hab hba]
      · rw [byteLe, if_neg (by omega : ¬ x < y), if_pos h] at hab
        exact absurd hab (by simp)

theorem inorderT_chain (l : List IdxEntry) : ∀ acc : IdxTree,
    inorderT (l.foldl (fun acc t => IdxTree.node t IdxTree.leaf acc) acc) =
      l.reverse ++ inorderT acc := by
  induction l with
  | nil => intro acc; simp
  | cons t rest ih =>
    intro acc
    simp only [List.foldl_cons, List.reverse_cons]
    rw [ih (IdxTree.node t IdxTree.leaf acc)]
    simp [inorderT]

theorem runLo_le (m : List IdxEntry) (a : Nat) : ∀ lo, runLo m a lo ≤ lo := by
  intro lo
  induction lo with
  | zero => simp [runLo]
  | succ k ih =>
    rw [runLo]
    split
    · omega
    · omega

theorem runHi_aux (m : List IdxEntry) (a : Nat) :
    ∀ d hi, m.length ≤ hi + d →
      (hi ≤ runHi m a hi ∧ (hi ≤ m.length → runHi m a hi ≤ m.length)) := by
  intro d
  induction d with
  | zero =>
    intro hi hle
    rw [runHi, dif_neg (by omega)]
    omega
  | succ d ih =>
    intro hi hle
    rw [runHi]
    by_cases h : hi < m.length
    · rw [dif_pos h]
      split
      · obtain ⟨h1, h2⟩ := ih (hi + 1) (by omega)
        exact ⟨by omega, fun _ => h2 (by omega)⟩
      · omega
    · rw [dif_neg h]
      omega

theorem runHi_ge (m : List IdxEntry) (a hi : Nat) : hi ≤ runHi m a hi :=
  (runHi_aux m a m.length hi (by omega)).1

theorem runHi_le (m : List IdxEntry) (a hi : Nat) (h : hi ≤ m.length) :
    runHi m a hi ≤ m.length :=
  (runHi_aux m a m.length hi (by omega)).2 h

theorem list_split_three (m : List IdxEntry) (lo hi : Nat) (root : IdxEntry)
    (hroot : m[lo]? = some root) (hlohi : lo < hi) (hhi : hi ≤ m.length) :
    m = m.take lo ++
      root :: (List.take (hi - (lo + 1)) (List.drop (lo + 1) m) ++ m.drop hi) := by
  obtain ⟨hlt, hget⟩ := List.getElem?_eq_some_iff.1 hroot
  have e2 : m.drop lo = root :: m.drop (lo + 1) := by
    rw [List.drop_eq_getElem_cons hlt, hget]
  have e3 : List.take (hi - (lo + 1)) (List.drop (lo + 1) m) ++
      List.drop (hi - (lo + 1)) (List.drop (lo + 1) m) = List.drop (lo + 1) m :=
    List.take_append_drop _ _
  have e4 : List.drop (hi - (lo + 1)) (List.drop (lo + 1) m) = m.drop hi := by
    rw [List.drop_drop]
    congr 1
    omega
  rw [e4] at e3
  calc m = m.take lo ++ m.drop lo := (List.take_append_drop lo m).symm
    _ = m.take lo ++ root :: List.drop (lo + 1) m := by rw [e2]
    _ = m.take lo ++
        root :: (List.take (hi - (lo + 1)) (List.drop (lo + 1) m) ++ m.drop hi) := by
          rw [e3]

theorem inorder_writeIndexT_aux (n : Nat) :
    ∀ m : List IdxEntry, m.length ≤ n → ∀ left,
      inorderT (writeIndexT left m) = left ++ m := by
  induction n with
  | zero =>
    intro m hm left
    have hm0 : m = [] := List.eq_nil_of_length_eq_zero (by omega)
    subst hm0
    rw [writeIndexT]
    split
    · rw [inorderT_chain]
      simp [inorderT]
    · next med hmed => exact absurd hmed (by simp)
  | succ n ih =>
    intro m hm left
    rw [writeIndexT]
    split
    · next hnone =>
      have h2 : m.length ≤ m.length / 2 := List.getElem?_eq_none_iff.1 hnone
      have hm0 : m = [] := List.eq_nil_of_length_eq_zero (by omega)
      subst hm0
      rw [inorderT_chain]
      simp [inorderT]
    · next med hmed =>
      have hlen : m.length / 2 < m.length := (List.getElem?_eq_some_iff.1 hmed).1
      have hlo := runLo_le m med.2.1 (m.length / 2)
      have hhige := runHi_ge m med.2.1 (m.length / 2 + 1)
      have hhile := runHi_le m med.2.1 (m.length / 2 + 1) (by omega)
      split
      · next hroot =>
        have h2 : m.length ≤ runLo m med.2.1 (m.length / 2) :=
          List.getElem?_eq_none_iff.1 hroot
        omega
      · next root hroot =>
        simp only [inorderT]
        rw [ih (m.take (runLo m med.2.1 (m.length / 2)))
          (by simp only [List.length_take]; omega) left]
        rw [ih (m.drop (runHi m med.2.1 (m.length / 2 + 1)))
          (by simp only [List.length_drop]; omega)
          (List.take (runHi m med.2.1 (m.length / 2 + 1) -
            (runLo m med.2.1 (m.length / 2) + 1))
            (List.drop (runLo m med.2.1 (m.length / 2) + 1) m))]
        conv =>
          rhs
          rw [list_split_three m (runLo m med.2.1 (m.length / 2))
            (runHi m med.2.1 (m.length / 2 + 1)) root hroot (by omega) hhile]
        simp [List.append_assoc]

/-- Claim C6: the in-order walk of the BST emitted by write_index yields
the recorded names in the same order as a stable sort by atom name of the
recorded entry vector; this holds for every name-sorted permutation of
the recorded vector, which covers the unstable sort of the source. -/
theorem index_bst_order (env : Env) (v sorted : List IdxEntry)
    (hperm : List.Perm sorted v)
    (hsorted : List.Sorted (idxLe env) sorted) :
    (inorderT (writeIndexT [] sorted)).map (idxName env) =
      (sortEntriesByName env v).map (idxName env) := by
  have h1 : inorderT (writeIndexT [] sorted) = sorted := by
    have h2 := inorder_writeIndexT_aux sorted.length sorted (Nat.le_refl _) []
    simpa using h2
  rw [h1]
  have htot : IsTotal IdxEntry (idxLe env) := ⟨fun x y => byteLe_total _ _⟩
  have htr : IsTrans IdxEntry (idxLe env) := ⟨fun x y z => byteLe_trans _ _ _⟩
  have hsorted2 : List.Sorted (idxLe env) (sortEntriesByName env v) :=
    @List.sorted_insertionSort IdxEntry (idxLe env) _ htot htr v
  have hperm2 : List.Perm (sortEntriesByName env v) v := List.perm_insertionSort _ v
  have hpermM : List.Perm (List.map (idxName env) sorted)
      (List.map (idxName env) (sortEntriesByName env v)) :=
    (hperm.trans hperm2.symm).map (idxName env)
  have hanti : IsAntisymm (List Nat) (fun x y => byteLe x y = true) :=
    ⟨fun x y => byteLe_antisymm x y⟩
  exact @List.eq_of_perm_of_sorted (List Nat) (fun x y => byteLe x y = true) hanti _ _
    hpermM (List.Pairwise.map _ (fun a b h => h) hsorted)
    (List.Pairwise.map _ (fun a b h => h) hsorted2)

/-- Witness for index_bst_order on a two-entry recorded vector. -/
theorem index_bst_order_witness :
    List.Perm ([((false, 1, 1) : IdxEntry), (true, 0, 0)])
      ([((true, 0, 0) : IdxEntry), (false, 1, 1)]) ∧
    List.Sorted (idxLe idxEnv) [((false, 1, 1) : IdxEntry), (true, 0, 0)] ∧
    (inorderT (writeIndexT [] [((false, 1, 1) : IdxEntry), (true, 0, 0)])).map
        (idxName idxEnv) =
      (sortEntriesByName idxEnv [((true, 0, 0) : IdxEntry), (false, 1, 1)]).map
        (idxName idxEnv) :=
  ⟨by decide, by decide,
    index_bst_order idxEnv [((true, 0, 0) : IdxEntry), (false, 1, 1)]
      [((false, 1, 1) : IdxEntry), (true, 0, 0)] (by decide) (by decide)⟩

end MMB
